import Mathlib

/-!
Verification development for the peg-pack grammar compiler and its runtime
parse interpreter. The Lean definitions below are shallow embeddings of the
Rust sources: byte-class and series algebra (`src/core/series.rs`), the
instruction data model (`src/core/mod.rs`), character analysis
(`src/core/character.rs`, `src/core/fixed_point.rs`), validation
(`src/core/validation.rs`), expected inference (`src/core/expected.rs`),
cache insertion (`src/core/transformation/cache_insertion.rs`), the IR
loader (`src/core/load.rs`) and the runtime state machine
(`src/runtime/context.rs`, `src/runtime/result.rs`, `src/runtime/cache.rs`,
with the state wiring of `src/core/generation.rs`).

Machine integers (`u32`, `u8`, `usize`) are modelled as `Nat`; the embedded
code paths perform no wrapping arithmetic on the executions considered
(Rust debug builds would panic on overflow), and subtraction is used only
where the code guarantees the minuend is at least the subtrahend, which the
corresponding theorems track through explicit hypotheses.
-/

namespace PegPack

/-! ## Byte classes (`Class` in `src/core/series.rs`) -/

/-- `Class` from `src/core/series.rs`: a possibly complemented set of byte
ranges. Ranges are inclusive pairs `(start, end)`. -/
structure Class where
  negated : Bool
  ranges : List (Nat × Nat)
deriving DecidableEq, Repr

namespace Class

/-- Key order used by `Class::normalize`'s
`sort_unstable_by_key(|(start, _)| *start)`. -/
def byStart (a b : Nat × Nat) : Prop := a.1 ≤ b.1

instance : DecidableRel byStart := fun a b => Nat.decLe a.1 b.1

instance : IsTotal (Nat × Nat) byStart := ⟨fun a b => Nat.le_total a.1 b.1⟩

instance : IsTrans (Nat × Nat) byStart := ⟨fun _ _ _ => Nat.le_trans⟩

/-- `Class::new`. -/
def new (negated : Bool) : Class := ⟨negated, []⟩

/-- Sort the range list by start (the sort step of `Class::normalize`). -/
def sortRanges (l : List (Nat × Nat)) : List (Nat × Nat) :=
  l.insertionSort byStart

/-- The merge loop of `Class::normalize` with explicit fuel (each loop
iteration shortens the list or moves past one element, so `l.length` fuel
suffices): while the current range's end reaches the next range's start,
fuse the two ranges into one that spans both. -/
def mergeRangesF : Nat → List (Nat × Nat) → List (Nat × Nat)
  | _, [] => []
  | _, [r] => [r]
  | 0, l => l
  | fuel + 1, c :: n :: rest =>
    if n.1 ≤ c.2 then
      mergeRangesF fuel ((min c.1 n.1, max c.2 n.2) :: rest)
    else
      c :: mergeRangesF fuel (n :: rest)

/-- The merge loop of `Class::normalize`. -/
def mergeRanges (l : List (Nat × Nat)) : List (Nat × Nat) :=
  mergeRangesF l.length l

/-- `Class::normalize`. -/
def normalize (c : Class) : Class :=
  { c with ranges := mergeRanges (sortRanges c.ranges) }

/-- `Class::insert` (the `assert!(start <= end)` is tracked as a hypothesis
in the theorems below). -/
def insert (c : Class) (start stop : Nat) : Class :=
  normalize { c with ranges := c.ranges ++ [(start, stop)] }

/-- The range-splitting step of `Class::remove` applied to one stored
range. -/
def removeOne (start stop : Nat) (old : Nat × Nat) : List (Nat × Nat) :=
  (if old.1 < start then [(old.1, min old.2 (start - 1))] else []) ++
    (if stop < old.2 then [(max old.1 (stop + 1), old.2)] else [])

/-- `Class::remove`. -/
def remove (c : Class) (start stop : Nat) : Class :=
  normalize { c with ranges := (c.ranges.map (removeOne start stop)).flatten }

/-- `Class::union`. -/
def union (first second : Class) : Class :=
  if first.negated = second.negated then
    second.ranges.foldl (fun acc (r : Nat × Nat) => acc.insert r.1 r.2) first
  else
    let p := if first.negated then (first, second) else (second, first)
    p.2.ranges.foldl (fun acc (r : Nat × Nat) => acc.remove r.1 r.2) p.1

/-- `Class::contains`. -/
def containsC (first second : Class) : Bool :=
  union first second = first

/-- `Class::is_never`. -/
def isNever (c : Class) : Bool :=
  if c.negated then c.ranges = [(0, 255)] else c.ranges = []

/-! ### Range-list predicates -/

/-- Every stored range is well formed: start at most end. -/
def rangesWf (l : List (Nat × Nat)) : Bool :=
  l.all fun r => r.1 ≤ r.2

/-- Adjacent stored ranges `(a, b), (c, d)` satisfy `b < c`: no two ranges
overlap (they may still touch, `b + 1 = c`). -/
def gapped : List (Nat × Nat) → Bool
  | [] => true
  | [_] => true
  | c :: n :: rest => decide (c.2 < n.1) && gapped (n :: rest)

/-- The claim's stronger separation: adjacent ranges `(a, b), (c, d)`
satisfy `b + 1 < c`, i.e. touching ranges are coalesced as well. -/
def strictGapped : List (Nat × Nat) → Bool
  | [] => true
  | [_] => true
  | c :: n :: rest => decide (c.2 + 1 < n.1) && strictGapped (n :: rest)

/-- Starts are sorted (non-strictly) along the list. -/
def sortedByStart : List (Nat × Nat) → Bool
  | [] => true
  | [_] => true
  | c :: n :: rest => decide (c.1 ≤ n.1) && sortedByStart (n :: rest)

theorem sortedByStart_of_sorted {l : List (Nat × Nat)}
    (h : l.Sorted byStart) : sortedByStart l = true := by
  induction l with
  | nil => rfl
  | cons c t ih =>
    cases t with
    | nil => rfl
    | cons n rest =>
      rw [List.sorted_cons] at h
      simp only [sortedByStart, Bool.and_eq_true, decide_eq_true_eq]
      exact ⟨h.1 n (by simp), ih h.2⟩

theorem sortRanges_sorted (l : List (Nat × Nat)) :
    (sortRanges l).Sorted byStart :=
  List.sorted_insertionSort byStart l

theorem sortRanges_perm (l : List (Nat × Nat)) :
    (sortRanges l).Perm l :=
  List.perm_insertionSort byStart l

theorem mergeRangesF_head (fuel : Nat) :
    ∀ (c : Nat × Nat) (t : List (Nat × Nat)), t.length ≤ fuel →
      (c :: t).Sorted byStart →
      ∃ e tail, mergeRangesF fuel (c :: t) = (c.1, e) :: tail := by
  induction fuel with
  | zero =>
    intro c t ht _
    match t, ht with
    | [], _ => exact ⟨c.2, [], by simp [mergeRangesF]⟩
  | succ fuel ih =>
    intro c t ht h
    match t with
    | [] => exact ⟨c.2, [], by simp [mergeRangesF]⟩
    | n :: rest =>
      rw [List.sorted_cons] at h
      simp only [List.length_cons, Nat.succ_le_succ_iff] at ht
      by_cases hm : n.1 ≤ c.2
      · have hcn : c.1 ≤ n.1 := h.1 n (by simp)
        have hmin : min c.1 n.1 = c.1 := min_eq_left hcn
        have hs : ((c.1, max c.2 n.2) :: rest).Sorted byStart := by
          rw [List.sorted_cons]
          refine ⟨fun b hb => ?_, (List.sorted_cons.mp h.2).2⟩
          exact le_trans hcn ((List.sorted_cons.mp h.2).1 b hb)
        obtain ⟨e, tail, htl⟩ := ih (c.1, max c.2 n.2) rest ht hs
        refine ⟨e, tail, ?_⟩
        rw [mergeRangesF, if_pos hm, hmin]
        exact htl
      · exact ⟨c.2, mergeRangesF fuel (n :: rest), by
          rw [mergeRangesF, if_neg hm]⟩

theorem mergeRangesF_gapped (fuel : Nat) :
    ∀ l : List (Nat × Nat), l.length ≤ fuel + 1 → l.Sorted byStart →
      gapped (mergeRangesF fuel l) = true := by
  induction fuel with
  | zero =>
    intro l hl _
    match l, hl with
    | [], _ => rfl
    | [r], _ => rfl
  | succ fuel ih =>
    intro l hl h
    match l with
    | [] => rfl
    | [r] => rfl
    | c :: nx :: rest =>
      rw [List.sorted_cons] at h
      simp only [List.length_cons, Nat.succ_le_succ_iff] at hl
      by_cases hm : nx.1 ≤ c.2
      · have hcn : c.1 ≤ nx.1 := h.1 nx (by simp)
        have hs : ((min c.1 nx.1, max c.2 nx.2) :: rest).Sorted byStart := by
          rw [List.sorted_cons]
          refine ⟨fun b hb => ?_, (List.sorted_cons.mp h.2).2⟩
          exact le_trans (le_trans (min_le_left _ _) hcn)
            ((List.sorted_cons.mp h.2).1 b hb)
        rw [mergeRangesF, if_pos hm]
        exact ih _ (by simpa using hl) hs
      · rw [mergeRangesF, if_neg hm]
        obtain ⟨e, tail, htl⟩ :=
          mergeRangesF_head fuel nx rest (by simpa using hl) h.2
        have hrec : gapped (mergeRangesF fuel (nx :: rest)) = true :=
          ih _ (by simpa using hl) h.2
        rw [htl] at hrec ⊢
        simp only [gapped, Bool.and_eq_true, decide_eq_true_eq]
        exact ⟨Nat.lt_of_not_le hm, hrec⟩

theorem mergeRanges_gapped {l : List (Nat × Nat)}
    (h : l.Sorted byStart) : gapped (mergeRanges l) = true :=
  mergeRangesF_gapped l.length l (Nat.le_succ _) h

theorem mergeRangesF_wf (fuel : Nat) :
    ∀ l : List (Nat × Nat), rangesWf l = true →
      rangesWf (mergeRangesF fuel l) = true := by
  induction fuel with
  | zero =>
    intro l h
    match l with
    | [] => rfl
    | [r] => exact h
    | c :: nx :: rest => exact h
  | succ fuel ih =>
    intro l h
    match l with
    | [] => rfl
    | [r] => exact h
    | c :: nx :: rest =>
      simp only [rangesWf, List.all_cons, Bool.and_eq_true,
        decide_eq_true_eq] at h
      by_cases hm : nx.1 ≤ c.2
      · rw [mergeRangesF, if_pos hm]
        refine ih _ ?_
        simp only [rangesWf, List.all_cons, Bool.and_eq_true, decide_eq_true_eq]
        refine ⟨le_trans (min_le_left _ _) (le_trans h.1 (le_max_left _ _)),
          ?_⟩
        simpa [rangesWf] using h.2.2
      · rw [mergeRangesF, if_neg hm]
        simp only [rangesWf, List.all_cons, Bool.and_eq_true, decide_eq_true_eq]
        refine ⟨h.1, ?_⟩
        have := ih (nx :: rest) (by
          simp only [rangesWf, List.all_cons, Bool.and_eq_true,
            decide_eq_true_eq]
          exact ⟨h.2.1, h.2.2⟩)
        simpa [rangesWf] using this

theorem mergeRanges_wf {l : List (Nat × Nat)}
    (h : rangesWf l = true) : rangesWf (mergeRanges l) = true :=
  mergeRangesF_wf l.length l h

theorem sortedByStart_of_wf_gapped {m : List (Nat × Nat)}
    (hw : rangesWf m = true) (hg : gapped m = true) :
    sortedByStart m = true := by
  induction m with
  | nil => rfl
  | cons a t ih =>
    cases t with
    | nil => rfl
    | cons b rest =>
      simp only [gapped, sortedByStart, rangesWf, List.all_cons,
        Bool.and_eq_true, decide_eq_true_eq] at hg hw ⊢
      refine ⟨le_trans hw.1 (le_of_lt hg.1), ih ?_ ?_⟩
      · simp only [rangesWf, List.all_cons, Bool.and_eq_true,
          decide_eq_true_eq]
        exact ⟨hw.2.1, hw.2.2⟩
      · exact hg.2

theorem rangesWf_iff (l : List (Nat × Nat)) :
    rangesWf l = true ↔ ∀ r ∈ l, r.1 ≤ r.2 := by
  simp [rangesWf]

/-- `Class::normalize` leaves the range list sorted by start with
non-overlapping (though possibly touching) ranges. -/
theorem normalize_canonical (c : Class) (h : rangesWf c.ranges = true) :
    rangesWf (normalize c).ranges = true ∧
      sortedByStart (normalize c).ranges = true ∧
      gapped (normalize c).ranges = true := by
  have hsorted := sortRanges_sorted c.ranges
  have hwf : rangesWf (sortRanges c.ranges) = true := by
    rw [rangesWf_iff] at h ⊢
    intro r hr
    exact h r ((sortRanges_perm c.ranges).mem_iff.mp hr)
  exact ⟨mergeRanges_wf hwf,
    sortedByStart_of_wf_gapped (mergeRanges_wf hwf) (mergeRanges_gapped hsorted),
    mergeRanges_gapped hsorted⟩

/-- Canonical form after mutation: well-formed ranges, sorted by start, no
two ranges overlapping (adjacent `(a, b), (c, d)` have `b < c`). -/
def canonicalB (c : Class) : Bool :=
  rangesWf c.ranges && sortedByStart c.ranges && gapped c.ranges

theorem canonicalB_of_normalize (c : Class) (h : rangesWf c.ranges = true) :
    canonicalB (normalize c) = true := by
  obtain ⟨h1, h2, h3⟩ := normalize_canonical c h
  simp [canonicalB, h1, h2, h3]

theorem canonicalB_wf {c : Class} (h : canonicalB c = true) :
    rangesWf c.ranges = true := by
  simp only [canonicalB, Bool.and_eq_true] at h
  exact h.1.1

theorem insert_canonical (c : Class) (start stop : Nat)
    (h : rangesWf c.ranges = true) (hr : start ≤ stop) :
    canonicalB (c.insert start stop) = true := by
  refine canonicalB_of_normalize _ ?_
  rw [rangesWf_iff] at h ⊢
  intro r hr'
  rcases List.mem_append.mp hr' with hmem | hmem
  · exact h r hmem
  · simp only [List.mem_singleton] at hmem
    subst hmem
    exact hr

theorem remove_canonical (c : Class) (start stop : Nat)
    (h : rangesWf c.ranges = true) :
    canonicalB (c.remove start stop) = true := by
  refine canonicalB_of_normalize _ ?_
  rw [rangesWf_iff] at h ⊢
  intro r hr'
  simp only [List.mem_flatten, List.mem_map] at hr'
  obtain ⟨piece, ⟨old, hold, rfl⟩, hmem⟩ := hr'
  have hwf := h old hold
  simp only [removeOne, List.mem_append] at hmem
  rcases hmem with hmem | hmem
  · split at hmem
    · simp only [List.mem_singleton] at hmem
      subst hmem
      exact le_min hwf (by omega)
    · simp at hmem
  · split at hmem
    · simp only [List.mem_singleton] at hmem
      subst hmem
      exact max_le hwf (by omega)
    · simp at hmem

theorem union_canonical (first second : Class)
    (h1w : rangesWf first.ranges = true)
    (h2 : rangesWf second.ranges = true) :
    canonicalB (union first second) = true ∨
      union first second = first ∨ union first second = second := by
  -- both polarity cases are folds of `insert` / `remove` over the second
  -- class's ranges; each step re-normalizes, so the fold result is
  -- canonical as soon as one step ran.
  have fold_insert : ∀ (l : List (Nat × Nat)) (acc : Class),
      rangesWf acc.ranges = true → (∀ r ∈ l, r.1 ≤ r.2) →
      canonicalB (l.foldl (fun a (r : Nat × Nat) => a.insert r.1 r.2) acc)
          = true ∨
        l.foldl (fun a (r : Nat × Nat) => a.insert r.1 r.2) acc = acc := by
    intro l
    induction l with
    | nil => intro acc _ _; exact Or.inr rfl
    | cons r rest ih =>
      intro acc hacc hl
      have hstep := insert_canonical acc r.1 r.2 hacc (hl r (by simp))
      rcases ih (acc.insert r.1 r.2) (canonicalB_wf hstep)
          (fun s hs => hl s (by simp [hs])) with hres | hres
      · exact Or.inl hres
      · rw [List.foldl_cons, hres]
        exact Or.inl hstep
  have fold_remove : ∀ (l : List (Nat × Nat)) (acc : Class),
      rangesWf acc.ranges = true →
      canonicalB (l.foldl (fun a (r : Nat × Nat) => a.remove r.1 r.2) acc)
          = true ∨
        l.foldl (fun a (r : Nat × Nat) => a.remove r.1 r.2) acc = acc := by
    intro l
    induction l with
    | nil => intro acc _; exact Or.inr rfl
    | cons r rest ih =>
      intro acc hacc
      have hstep := remove_canonical acc r.1 r.2 hacc
      rcases ih (acc.remove r.1 r.2) (canonicalB_wf hstep) with hres | hres
      · exact Or.inl hres
      · rw [List.foldl_cons, hres]
        exact Or.inl hstep
  unfold union
  by_cases hp : first.negated = second.negated
  · rw [if_pos hp]
    rcases fold_insert second.ranges first h1w
        (fun r hrm => (rangesWf_iff _).mp h2 r hrm) with hres | hres
    · exact Or.inl hres
    · exact Or.inr (Or.inl hres)
  · rw [if_neg hp]
    by_cases hneg : first.negated
    · simp only [hneg, if_pos]
      rcases fold_remove second.ranges first h1w with hres | hres
      · exact Or.inl hres
      · exact Or.inr (Or.inl hres)
    · simp only [hneg, Bool.false_eq_true, if_neg, not_false_iff]
      rcases fold_remove first.ranges second h2 with hres | hres
      · exact Or.inl hres
      · exact Or.inr (Or.inr hres)

end Class

/-- C6 counterexample: inserting the touching ranges `(0,5)` and `(6,10)`
into an empty positive class leaves both ranges stored separately; the
stored list violates the claimed `b + 1 < c` separation of adjacent ranges,
because `Class::normalize` only coalesces when `current.end >= next.start`
and so keeps touching ranges apart. -/
theorem class_touching_ranges_kept :
    ((Class.new false).insert 0 5).insert 6 10 =
        { negated := false, ranges := [(0, 5), (6, 10)] } ∧
      Class.strictGapped
          (((Class.new false).insert 0 5).insert 6 10).ranges = false := by
  constructor
  · rfl
  · rfl

/-- C6 (amended): after `Class::insert` or `Class::remove` on a class with
well-formed ranges (and `start <= end`, which the code asserts), the stored
range list is sorted by start and adjacent ranges `(a, b), (c, d)` satisfy
`b < c` — no two ranges overlap, but touching ranges (`b + 1 = c`) are kept
separate; `Class::union` either yields the same canonical shape or returns
one operand unchanged (when the other contributes no ranges to fold). -/
theorem class_mutations_canonical (c d : Class) (start stop : Nat)
    (hc : Class.rangesWf c.ranges = true)
    (hd : Class.rangesWf d.ranges = true)
    (hr : start ≤ stop) :
    Class.canonicalB (c.insert start stop) = true ∧
      Class.canonicalB (c.remove start stop) = true ∧
      (Class.canonicalB (Class.union c d) = true ∨
        Class.union c d = c ∨ Class.union c d = d) :=
  ⟨Class.insert_canonical c start stop hc hr,
    Class.remove_canonical c start stop hc,
    Class.union_canonical c d hc hd⟩

/-- Witness for `class_mutations_canonical` at concrete classes. -/
theorem class_mutations_canonical_witness :
    Class.rangesWf [(3, 4)] = true ∧ Class.rangesWf [(7, 9)] = true ∧
      0 ≤ 1 ∧
      Class.canonicalB ((Class.mk false [(3, 4)]).insert 0 1) = true :=
  ⟨by decide, by decide, by decide,
    (class_mutations_canonical (Class.mk false [(3, 4)])
      (Class.mk false [(7, 9)]) 0 1 (by decide) (by decide) (by decide)).1⟩

/-! ## Series (`Series` in `src/core/series.rs`) -/

/-- `Series`: an ordered sequence of byte classes. -/
structure Series where
  classes : List Class
deriving DecidableEq, Repr

namespace Series

/-- `Series::empty`. -/
def empty : Series := ⟨[]⟩

/-- `Series::is_empty`. -/
def isEmptyS (s : Series) : Bool := s.classes.isEmpty

/-- `Series::is_never`. -/
def isNeverS (s : Series) : Bool := s.classes.any Class.isNever

/-- `Series::append`: push a class, collapsing to the canonical never
series (one positive empty class) when any class is never. -/
def append (s : Series) (c : Class) : Series :=
  let pushed : Series := ⟨s.classes ++ [c]⟩
  if isNeverS pushed then ⟨[Class.new false]⟩ else pushed

end Series

/-! ## Expected sets (`Expected` in `src/core/expected.rs`) -/

/-- `Expected`: a sorted set of labels plus a sorted set of byte-string
literals (`BTreeSet`s in the source, modelled as `Finset`s). -/
structure Expected where
  labels : Finset String
  literals : Finset (List Nat)
deriving DecidableEq

namespace Expected

/-- The empty expected set (`compute_expected`'s initial accumulator). -/
def emptyE : Expected := ⟨∅, ∅⟩

/-- `Expected::linear_series_prefix`: the maximal leading run of classes
that each denote exactly one byte (positive, a single range whose bounds
coincide); the loop stops — returning the bytes collected so far — at the
first class that is negated, has more than one range, or a non-singleton
range. -/
def linearRun : List Class → List Nat
  | [] => []
  | cls :: rest =>
    if cls.negated then []
    else
      match cls.ranges with
      | [(lo, hi)] => if lo = hi then lo :: linearRun rest else []
      | _ => []

/-- The inclusive byte span of one stored range (`*lower..=*upper`). -/
def rangeBytes (r : Nat × Nat) : List Nat :=
  List.range' r.1 (r.2 + 1 - r.1)

/-- `Expected::append_series`: add the linear prefix as one literal when it
is non-empty; otherwise, when the first class is positive, add one single-
byte literal per byte covered by each of its ranges. -/
def appendSeries (e : Expected) (s : Series) : Expected :=
  if linearRun s.classes ≠ [] then
    { e with literals := insert (linearRun s.classes) e.literals }
  else
    match s.classes.head? with
    | some cls =>
      if cls.negated = false then
        { e with
          literals :=
            cls.ranges.foldl
              (fun acc r =>
                (rangeBytes r).foldl (fun a b => insert [b] a) acc)
              e.literals }
      else e
    | none => e

/-- A class denoting exactly one byte: positive with a single singleton
range. -/
def singleByte (cls : Class) : Option Nat :=
  if cls.negated then none
  else
    match cls.ranges with
    | [(lo, hi)] => if lo = hi then some lo else none
    | _ => none

/-- The literals C4 predicts `append_series` adds for a series: the whole
byte string when every class is a singleton byte, otherwise one one-byte
literal per singleton range of a positive first class (and nothing else). -/
def claimLits (s : Series) : Finset (List Nat) :=
  if s.classes ≠ [] ∧ s.classes.all fun c => (singleByte c).isSome then
    {s.classes.filterMap singleByte}
  else
    match s.classes.head? with
    | some cls =>
      if cls.negated = false ∧ cls.ranges ≠ [] then
        ((cls.ranges.filter fun r => r.1 = r.2).map fun r => [r.1]).toFinset
      else ∅
    | none => ∅

/-- The literals `append_series` actually adds: the non-empty maximal
singleton-byte run, or else every byte of every range of a positive first
class as a one-byte literal. -/
def codeLits (s : Series) : Finset (List Nat) :=
  if linearRun s.classes ≠ [] then {linearRun s.classes}
  else
    match s.classes.head? with
    | some cls =>
      if cls.negated = false then
        (((cls.ranges.map rangeBytes).flatten).map fun b => [b]).toFinset
      else ∅
    | none => ∅

theorem foldl_insert_toFinset {α β : Type} [DecidableEq α] (f : β → α)
    (l : List β) (acc : Finset α) :
    l.foldl (fun a b => insert (f b) a) acc = acc ∪ (l.map f).toFinset := by
  induction l generalizing acc with
  | nil => simp
  | cons b rest ih =>
    rw [List.foldl_cons, ih]
    ext x
    simp only [Finset.mem_union, Finset.mem_insert, List.map_cons,
      List.toFinset_cons, Finset.mem_insert, List.mem_toFinset]
    tauto

theorem ranges_foldl_insert (ranges : List (Nat × Nat))
    (acc : Finset (List Nat)) :
    ranges.foldl
        (fun a r => (rangeBytes r).foldl (fun a b => insert [b] a) a) acc =
      acc ∪ (((ranges.map rangeBytes).flatten).map fun b => [b]).toFinset := by
  induction ranges generalizing acc with
  | nil => simp
  | cons r rest ih =>
    rw [List.foldl_cons, ih, foldl_insert_toFinset]
    ext x
    simp only [Finset.mem_union, List.map_cons, List.flatten_cons,
      List.map_append, List.toFinset_append, Finset.mem_union]
    tauto

end Expected

/-- C4 counterexample: for the one-class series whose positive first class
holds the non-singleton range `(97, 98)`, `append_series` inserts the
one-byte literals `[97]` and `[98]` (one per byte of the range), while the
claim — which lets only singleton ranges contribute — predicts that no
literal is added. -/
theorem appendSeries_range_literals_diverge :
    (Expected.appendSeries Expected.emptyE ⟨[⟨false, [(97, 98)]⟩]⟩).literals ≠
        Expected.emptyE.literals ∪
          Expected.claimLits ⟨[⟨false, [(97, 98)]⟩]⟩ ∧
      (Expected.appendSeries Expected.emptyE
          ⟨[⟨false, [(97, 98)]⟩]⟩).literals = {[97], [98]} := by
  constructor
  · decide
  · decide

/-- C4 (amended): `append_series` adds, as literals, exactly the maximal
leading run of singleton-byte classes when that run is non-empty (so also
when only a proper prefix of the classes are singleton bytes), and
otherwise — when the first class is positive — one one-byte literal for
every byte covered by each of its ranges (not only singleton ranges);
labels are untouched. -/
theorem appendSeries_literals (e : Expected) (s : Series) :
    (Expected.appendSeries e s).literals =
        e.literals ∪ Expected.codeLits s ∧
      (Expected.appendSeries e s).labels = e.labels := by
  unfold Expected.appendSeries Expected.codeLits
  by_cases hlit : Expected.linearRun s.classes ≠ []
  · rw [if_pos hlit, if_pos hlit]
    exact ⟨by rw [Finset.insert_eq, Finset.union_comm], rfl⟩
  · rw [if_neg hlit, if_neg hlit]
    cases hhead : s.classes.head? with
    | none => exact ⟨by simp, rfl⟩
    | some cls =>
      simp only []
      by_cases hneg : cls.negated = false
      · rw [if_pos hneg, if_pos hneg]
        exact ⟨Expected.ranges_foldl_insert cls.ranges e.literals, rfl⟩
      · rw [if_neg hneg, if_neg hneg]
        exact ⟨by simp, rfl⟩

/-! ## Instruction graph data model (`src/core/mod.rs`, `src/store.rs`) -/

/-- `Instruction` from `src/core/mod.rs` (ids are plain `Nat`s standing for
`InstructionId` / `ExpectedId` / `LabelId` / `SeriesId`). -/
inductive Instruction where
  | seq (first second : Nat)
  | choice (first second : Nat)
  | notAhead (target : Nat)
  | error (target expected : Nat)
  | label (target labelId : Nat)
  | cache (target : Nat) (slot : Option Nat)
  | delegate (target : Nat)
  | series (seriesId : Nat)
deriving DecidableEq, Repr

namespace Instruction

/-- `Instruction::successors` (first/target before second). -/
def successors : Instruction → List Nat
  | .seq first second | .choice first second => [first, second]
  | .notAhead target | .error target _ | .label target _
  | .cache target _ | .delegate target => [target]
  | .series _ => []

/-- `Instruction::remapped`. -/
def remapped (mapper : Nat → Nat) : Instruction → Instruction
  | .seq first second => .seq (mapper first) (mapper second)
  | .choice first second => .choice (mapper first) (mapper second)
  | .notAhead target => .notAhead (mapper target)
  | .error target expected => .error (mapper target) expected
  | .label target labelId => .label (mapper target) labelId
  | .delegate target => .delegate (mapper target)
  | .cache target id => .cache (mapper target) id
  | .series s => .series s

/-- Whether the instruction is a `Cache` node. -/
def isCache : Instruction → Bool
  | .cache _ _ => true
  | _ => false

end Instruction

/-- `Store` from `src/store.rs`: an insertion-ordered map from dense `Nat`
keys (a `BTreeMap` plus a never-decreasing `next_id`); entries are kept
sorted by key, matching `BTreeMap` iteration order. -/
structure Store (V : Type) where
  nextId : Nat
  entries : List (Nat × V)
deriving DecidableEq, Repr

namespace Store

/-- The empty store (`Store::new`). -/
def newStore {V : Type} : Store V := ⟨0, []⟩

/-- Key-sorted insert-or-replace on the entry list (`BTreeMap::insert`). -/
def setEntries {V : Type} (k : Nat) (v : V) :
    List (Nat × V) → List (Nat × V)
  | [] => [(k, v)]
  | (k', v') :: rest =>
    if k < k' then (k, v) :: (k', v') :: rest
    else if k = k' then (k, v) :: rest
    else (k', v') :: setEntries k v rest

/-- `Store::set`. -/
def set {V : Type} (s : Store V) (k : Nat) (v : V) : Store V :=
  ⟨max s.nextId (k + 1), setEntries k v s.entries⟩

/-- `Store::insert` (`reserve` + `set`). -/
def insertS {V : Type} (s : Store V) (v : V) : Nat × Store V :=
  (s.nextId, set s s.nextId v)

/-- `BTreeMap::get`. -/
def lookup {V : Type} (s : Store V) (k : Nat) : Option V :=
  (s.entries.find? fun e => e.1 = k).map Prod.snd

/-- The stored keys in iteration order. -/
def keys {V : Type} (s : Store V) : List Nat :=
  s.entries.map Prod.fst

theorem lookup_isSome_iff_mem_keys {V : Type} (s : Store V) (k : Nat) :
    (s.lookup k).isSome = true ↔ k ∈ s.keys := by
  constructor
  · intro h
    cases hfind : s.entries.find? (fun e => e.1 = k) with
    | none =>
      rw [lookup, hfind] at h
      cases h
    | some e =>
      have hm := List.mem_of_find?_eq_some hfind
      have hp := List.find?_some hfind
      simp only [decide_eq_true_eq] at hp
      exact List.mem_map.mpr ⟨e, hm, hp⟩
  · intro h
    obtain ⟨e, he, rfl⟩ := List.mem_map.mp h
    rw [lookup]
    cases hfind : s.entries.find? (fun en => en.1 = e.1) with
    | some _ => simp
    | none =>
      exfalso
      have := List.find?_eq_none.mp hfind e he
      simp at this

end Store

/-- Debug symbols (`DebugSymbol` in `src/core/mod.rs`): a set of rule
names. -/
abbrev DebugSymbol : Type := Finset String

/-- `Parser` from `src/core/mod.rs`: the start id plus the four stores and
the per-instruction debug symbols. -/
structure Parser where
  start : Nat
  instructions : Store Instruction
  seriesStore : Store Series
  labelsStore : Store String
  expectedsStore : Store Expected
  debugSymbols : List (Nat × DebugSymbol)
deriving DecidableEq

namespace Parser

/-- `Parser::new`. -/
def newParser : Parser :=
  ⟨0, Store.newStore, Store.newStore, Store.newStore, Store.newStore, []⟩

/-- `Parser::insert`: reserve a fresh id, store the instruction and record
its debug symbol. -/
def insertI (p : Parser) (instruction : Instruction) (symbol : DebugSymbol) :
    Nat × Parser :=
  let (id, store) := p.instructions.insertS instruction
  (id, { p with instructions := store,
                debugSymbols := (id, symbol) :: p.debugSymbols })

/-- All referenced instruction ids resolve, the start id resolves, and
store keys are duplicate-free: the well-formedness every loaded parser
enjoys (`src/core/load.rs` only produces such graphs). -/
def ClosedB (p : Parser) : Bool :=
  (p.instructions.lookup p.start).isSome &&
    p.instructions.keys.Nodup &&
    p.instructions.entries.all fun e =>
      e.2.successors.all fun s => (p.instructions.lookup s).isSome

end Parser

/-! ## Character analysis (`src/core/character.rs`) -/

/-- The five-attribute character of an instruction. -/
structure Character where
  transparent : Bool
  antitransparent : Bool
  fallible : Bool
  labelProne : Bool
  errorProne : Bool
deriving DecidableEq, Repr

namespace Character

/-- `Character::possible`. -/
def possible (c : Character) : Bool := c.transparent || c.antitransparent

/-- The all-false seed state (`default` in `patch_characters`). -/
def defaultChar : Character := ⟨false, false, false, false, false⟩

end Character

/-- `Parser::characterize_seq` (reads the two child states). -/
def characterizeSeq (first second : Character) : Character :=
  let possible := first.possible && second.possible
  { transparent := (first.transparent && second.transparent) && possible
    antitransparent :=
      (first.antitransparent || second.antitransparent) && possible
    fallible := first.fallible || second.fallible
    labelProne := (first.labelProne || second.labelProne) && possible
    errorProne := (first.errorProne || second.errorProne) && possible }

/-- `Parser::characterize_choice`: the second branch is gated behind
`first.fallible || first.error_prone`. -/
def characterizeChoice (first second : Character) : Character :=
  let secondExecutable := first.fallible || first.errorProne
  { transparent := first.transparent || secondExecutable && second.transparent
    antitransparent :=
      first.antitransparent || secondExecutable && second.antitransparent
    fallible := first.fallible && second.fallible
    labelProne := first.labelProne || secondExecutable && second.labelProne
    errorProne := first.errorProne || secondExecutable && second.errorProne }

/-- The ordered-choice character rule abstracted over the boolean gate
that decides whether the second branch can run at all. -/
def characterizeChoiceGated (secondExecutable : Bool)
    (first second : Character) : Character :=
  { transparent := first.transparent || secondExecutable && second.transparent
    antitransparent :=
      first.antitransparent || secondExecutable && second.antitransparent
    fallible := first.fallible && second.fallible
    labelProne := first.labelProne || secondExecutable && second.labelProne
    errorProne := first.errorProne || secondExecutable && second.errorProne }

/-- Modelled from the spec: the character rule for `FirstChoice(a, b)`.
This source tree's `Instruction` enum (`src/core/mod.rs`) and
`patch_characters` (`src/core/character.rs`) predate the `FirstChoice`
variant that validation, normalisation and cache insertion already match
on, so its characterisation is absent from `src/`; per the spec it is the
`Choice` rule with the second branch gated behind `a.fallible` alone. -/
def characterizeFirstChoice (first second : Character) : Character :=
  { transparent := first.transparent || first.fallible && second.transparent
    antitransparent :=
      first.antitransparent || first.fallible && second.antitransparent
    fallible := first.fallible && second.fallible
    labelProne := first.labelProne || first.fallible && second.labelProne
    errorProne := first.errorProne || first.fallible && second.errorProne }

/-- `Parser::characterize_not_ahead`. -/
def characterizeNotAhead (target : Character) : Character :=
  { transparent := target.fallible
    antitransparent := false
    fallible := target.possible
    labelProne := false
    errorProne := false }

/-- `Parser::characterize_label`. -/
def characterizeLabel (target : Character) : Character :=
  { transparent := target.transparent
    antitransparent := target.antitransparent
    fallible := target.fallible
    labelProne := target.possible
    errorProne := target.errorProne }

/-- `Parser::characterize_error`. -/
def characterizeError (target : Character) : Character :=
  { transparent := target.transparent
    antitransparent := target.antitransparent
    fallible := target.fallible
    labelProne := target.labelProne
    errorProne := target.possible }

/-- `Parser::characterize_delegate_like` (`Cache` and `Delegate`). -/
def characterizeDelegateLike (target : Character) : Character :=
  { transparent := target.transparent
    antitransparent := target.antitransparent
    fallible := target.fallible
    labelProne := target.labelProne
    errorProne := target.errorProne }

/-- `Parser::characterize_series`. -/
def characterizeSeries (s : Series) : Character :=
  { transparent := s.isEmptyS
    antitransparent := !s.isEmptyS && !s.isNeverS
    fallible := !s.isEmptyS
    labelProne := false
    errorProne := false }

/-- The per-instruction evaluation function passed to the fixed-point
solver by `patch_characters` (a missing series id yields the seed state;
the source indexes the store, which cannot fail on loaded graphs). -/
def evaluateChar (p : Parser) (states : Nat → Character) :
    Instruction → Character
  | .seq first second => characterizeSeq (states first) (states second)
  | .choice first second => characterizeChoice (states first) (states second)
  | .notAhead target => characterizeNotAhead (states target)
  | .error target _ => characterizeError (states target)
  | .label target _ => characterizeLabel (states target)
  | .cache target _ => characterizeDelegateLike (states target)
  | .delegate target => characterizeDelegateLike (states target)
  | .series sid =>
    match p.seriesStore.lookup sid with
    | some s => characterizeSeries s
    | none => Character.defaultChar

/-- `compute_predecessors` restricted to one queried id: the set of ids
whose instruction references it (each referencing id listed once). -/
def predsList (p : Parser) (i : Nat) : List Nat :=
  (p.instructions.entries.filter fun e => i ∈ e.2.successors).map Prod.fst

/-- The ordered-set worklist (`FixedPointQueue`): a stack of pending ids
plus the membership set. -/
structure FPQueue where
  elements : List Nat
  mem : List Nat
deriving DecidableEq, Repr

/-- `FixedPointQueue::insert`. -/
def fpInsert (q : FPQueue) (v : Nat) : FPQueue :=
  if v ∈ q.mem then q else ⟨v :: q.elements, v :: q.mem⟩

/-- The worklist loop of `solve_fixed_point`, with explicit fuel. Rust's
`HashSet` iteration order for predecessors is unspecified; predecessors are
enqueued here in store order. -/
def solveLoop (p : Parser) : Nat → FPQueue → (Nat → Character) →
    (Nat → Character)
  | 0, _, states => states
  | fuel + 1, q, states =>
    match q.elements with
    | [] => states
    | id :: rest =>
      let popped : FPQueue := ⟨rest, q.mem.erase id⟩
      match p.instructions.lookup id with
      | none => solveLoop p fuel popped states
      | some instr =>
        let newValue := evaluateChar p states instr
        let updated : Bool := states id ≠ newValue
        let states' := fun j => if j = id then newValue else states j
        if updated then
          solveLoop p fuel
            ((predsList p id).foldl fpInsert popped) states'
        else
          solveLoop p fuel popped states'

/-- Enough fuel for the worklist to converge: each of the `n` instructions
can rise at most five times, re-enqueuing at most `n` predecessors. -/
def charFuel (p : Parser) : Nat :=
  let n := p.instructions.entries.length
  (5 * n + 1) * (n + 1) + n + 1

/-- `Parser::characterize`: the full fixed-point run, seeded with the
all-false default and every instruction queued in store order. -/
def characterize (p : Parser) : Nat → Character :=
  solveLoop p (charFuel p)
    ((p.instructions.keys).foldl fpInsert ⟨[], []⟩)
    (fun _ => Character.defaultChar)

/-- C7: the `FirstChoice` character rule (modelled from the spec, since
this tree's `patch_characters` predates the variant) computes all five
attributes by the same gated scheme as the source's `characterize_choice`,
with the sole difference that the second branch's reachability gate is
`first.fallible` alone instead of `first.fallible || first.error_prone`. -/
theorem characterize_firstChoice_is_choice_with_fallible_gate :
    (∀ a b : Character,
        characterizeChoice a b =
          characterizeChoiceGated (a.fallible || a.errorProne) a b) ∧
      (∀ a b : Character,
        characterizeFirstChoice a b = characterizeChoiceGated a.fallible a b) :=
  ⟨fun _ _ => rfl, fun _ _ => rfl⟩

/-! ## Validation (`src/core/validation.rs`) -/

inductive ValidationError where
  | leftRecursion (id : Nat)
deriving DecidableEq, Repr

/-- `Parser::can_reach` with explicit fuel. The Rust version mutates one
`visited` set, removing `id` before returning, so the set always equals the
current call path; here it is passed functionally. -/
def canReach (p : Parser) (chars : Nat → Character) (base : Nat) :
    Nat → Nat → List Nat → Bool
  | 0, _, _ => false
  | fuel + 1, id, visited =>
    if base = id ∧ visited ≠ [] then true
    else if id ∈ visited then false
    else
      match p.instructions.lookup id with
      | none => false
      | some instr =>
        match instr with
        | .seq first second =>
          canReach p chars base fuel first (id :: visited) ||
            ((chars first).transparent &&
              canReach p chars base fuel second (id :: visited))
        | .choice first second =>
          canReach p chars base fuel first (id :: visited) ||
            (((chars first).fallible || (chars first).errorProne) &&
              canReach p chars base fuel second (id :: visited))
        | .notAhead target | .error target _ | .label target _
        | .cache target _ | .delegate target =>
          canReach p chars base fuel target (id :: visited)
        | .series _ => false

/-- Fuel sufficient for any simple search path: one level per stored
instruction plus the closing arrival. -/
def reachFuel (p : Parser) : Nat :=
  p.instructions.entries.length + 1

/-- `Parser::validate`: one `LeftRecursion` error per instruction that can
reach itself. -/
def validate (p : Parser) : List ValidationError :=
  p.instructions.keys.filterMap fun id =>
    if canReach p (characterize p) id (reachFuel p) id [] then
      some (ValidationError.leftRecursion id)
    else none

/-- The potential left-edges `can_reach` follows out of an instruction:
`Seq` contributes its first child always and its second child when the
first is transparent; `Choice` contributes its second child when the first
is fallible or error-prone; the unary wrappers contribute their target;
`Series` contributes nothing. -/
def leftSuccs (p : Parser) (chars : Nat → Character) (id : Nat) : List Nat :=
  match p.instructions.lookup id with
  | none => []
  | some instr =>
    match instr with
    | .seq first second =>
      first :: (if (chars first).transparent then [second] else [])
    | .choice first second =>
      first ::
        (if (chars first).fallible || (chars first).errorProne then [second]
         else [])
    | .notAhead target | .error target _ | .label target _
    | .cache target _ | .delegate target => [target]
    | .series _ => []

/-- One potential left-edge. -/
def LeftStep (p : Parser) (chars : Nat → Character) (a b : Nat) : Prop :=
  b ∈ leftSuccs p chars a

/-- A walk along a relation with its list of intermediate nodes. -/
inductive Walks (R : Nat → Nat → Prop) : Nat → List Nat → Nat → Prop where
  | single {a b : Nat} : R a b → Walks R a [] b
  | cons {a c b : Nat} {l : List Nat} :
      R a c → Walks R c l b → Walks R a (c :: l) b

theorem walks_snoc {R : Nat → Nat → Prop} {a b c : Nat} {l : List Nat}
    (h : Walks R a l b) (hr : R b c) : Walks R a (l ++ [b]) c := by
  induction h with
  | single hr' => exact Walks.cons hr' (Walks.single hr)
  | cons hr' _ ih => exact Walks.cons hr' (ih hr)

theorem transGen_iff_walks {R : Nat → Nat → Prop} {a b : Nat} :
    Relation.TransGen R a b ↔ ∃ l, Walks R a l b := by
  constructor
  · intro h
    induction h with
    | single hr => exact ⟨[], Walks.single hr⟩
    | tail _ hr ih =>
      obtain ⟨l, hw⟩ := ih
      exact ⟨_, walks_snoc hw hr⟩
  · rintro ⟨l, hw⟩
    induction hw with
    | single hr => exact Relation.TransGen.single hr
    | cons hr _ ih => exact Relation.TransGen.head hr ih

theorem walks_append {R : Nat → Nat → Prop} {a c b : Nat}
    {l₁ l₂ : List Nat} (h₁ : Walks R a l₁ c) (h₂ : Walks R c l₂ b) :
    Walks R a (l₁ ++ c :: l₂) b := by
  induction h₁ with
  | single hr => exact Walks.cons hr h₂
  | cons hr _ ih => exact Walks.cons hr (ih h₂)

theorem walks_split {R : Nat → Nat → Prop} {a b c : Nat} {l : List Nat}
    (h : Walks R a l b) (hc : c ∈ l) :
    ∃ l₁ l₂, Walks R a l₁ c ∧ Walks R c l₂ b ∧
      l = l₁ ++ c :: l₂ := by
  induction h with
  | single _ => cases hc
  | @cons a x b l hr hw ih =>
    rcases List.mem_cons.mp hc with rfl | hc'
    · exact ⟨[], l, Walks.single hr, hw, rfl⟩
    · obtain ⟨l₁, l₂, h₁, h₂, rfl⟩ := ih hc'
      exact ⟨x :: l₁, l₂, Walks.cons hr h₁, h₂, rfl⟩

theorem walks_simple_bound {R : Nat → Nat → Prop} (n : Nat) :
    ∀ {a : Nat} {l : List Nat}, l.length ≤ n → Walks R a l a →
      ∃ l', Walks R a l' a ∧ a ∉ l' ∧ l'.Nodup ∧ l'.length ≤ l.length := by
  induction n with
  | zero =>
    intro a l hl h
    match l, hl with
    | [], _ => exact ⟨[], h, by simp, List.nodup_nil, le_rfl⟩
  | succ n ih =>
    intro a l hl h
    by_cases ha : a ∈ l
    · obtain ⟨l₁, l₂, h₁, _, rfl⟩ := walks_split h ha
      have hlen₁ : l₁.length ≤ n := by
        simp only [List.length_append, List.length_cons] at hl
        omega
      obtain ⟨l', hw', hnotin, hnodup, hshort⟩ := ih hlen₁ h₁
      exact ⟨l', hw', hnotin, hnodup, le_trans hshort (by simp)⟩
    · by_cases hnd : l.Nodup
      · exact ⟨l, h, ha, hnd, le_rfl⟩
      · obtain ⟨x, hdup⟩ := List.exists_duplicate_iff_not_nodup.mpr hnd
        have hx : x ∈ l := hdup.mem
        obtain ⟨l₁, l₂, h₁, h₂, rfl⟩ := walks_split h hx
        by_cases hx₂ : x ∈ l₂
        · obtain ⟨l₃, l₄, h₃, h₄, rfl⟩ := walks_split h₂ hx₂
          have hshorter := walks_append h₁ h₄
          have hlen' : (l₁ ++ x :: l₄).length ≤ n := by
            simp only [List.length_append, List.length_cons] at hl ⊢
            omega
          obtain ⟨l', hw', hnotin, hnodup, hshort⟩ := ih hlen' hshorter
          refine ⟨l', hw', hnotin, hnodup, le_trans hshort ?_⟩
          simp only [List.length_append, List.length_cons]
          omega
        · have hx₁ : x ∈ l₁ := by
            have hcount := List.duplicate_iff_two_le_count.mp hdup
            rw [List.count_append, List.count_cons] at hcount
            have hc₂ : l₂.count x = 0 := List.count_eq_zero.mpr hx₂
            rw [hc₂] at hcount
            simp only [beq_self_eq_true, if_true] at hcount
            exact List.count_pos_iff.mp (by omega)
          obtain ⟨l₃, l₄, h₃, h₄, rfl⟩ := walks_split h₁ hx₁
          have hshorter := walks_append h₃ h₂
          have hlen' : (l₃ ++ x :: l₂).length ≤ n := by
            simp only [List.length_append, List.length_cons] at hl ⊢
            omega
          obtain ⟨l', hw', hnotin, hnodup, hshort⟩ := ih hlen' hshorter
          refine ⟨l', hw', hnotin, hnodup, le_trans hshort ?_⟩
          simp only [List.length_append, List.length_cons]
          omega

/-- Any non-empty cycle through `a` contains a simple one: no repeated
intermediate node and `a` itself not among the intermediates. -/
theorem walks_simple {R : Nat → Nat → Prop} {a : Nat} {l : List Nat}
    (h : Walks R a l a) :
    ∃ l', Walks R a l' a ∧ a ∉ l' ∧ l'.Nodup ∧ l'.length ≤ l.length :=
  walks_simple_bound l.length le_rfl h

theorem canReach_succ_iff (p : Parser) (chars : Nat → Character)
    (base fuel id : Nat) (visited : List Nat)
    (h1 : ¬(base = id ∧ visited ≠ [])) (h2 : id ∉ visited) :
    canReach p chars base (fuel + 1) id visited = true ↔
      ∃ s ∈ leftSuccs p chars id,
        canReach p chars base fuel s (id :: visited) = true := by
  rw [canReach, if_neg h1, if_neg h2]
  cases hlk : p.instructions.lookup id with
  | none => simp [leftSuccs, hlk]
  | some instr =>
    cases instr with
    | seq first second =>
      cases hg : (chars first).transparent with
      | false => simp [leftSuccs, hlk, hg]
      | true => simp [leftSuccs, hlk, hg, or_comm]
    | choice first second =>
      cases hgf : (chars first).fallible with
      | true => simp [leftSuccs, hlk, hgf, or_comm]
      | false =>
        cases hge : (chars first).errorProne with
        | false => simp [leftSuccs, hlk, hgf, hge]
        | true => simp [leftSuccs, hlk, hgf, hge, or_comm]
    | notAhead target => simp [leftSuccs, hlk]
    | error target expected => simp [leftSuccs, hlk]
    | label target labelId => simp [leftSuccs, hlk]
    | cache target slot => simp [leftSuccs, hlk]
    | delegate target => simp [leftSuccs, hlk]
    | series sid => simp [leftSuccs, hlk]

theorem canReach_sound (p : Parser) (chars : Nat → Character) (base : Nat) :
    ∀ (fuel id : Nat) (visited : List Nat),
      canReach p chars base fuel id visited = true →
      Relation.ReflTransGen (LeftStep p chars) id base ∧
        (visited = [] → Relation.TransGen (LeftStep p chars) id base) := by
  intro fuel
  induction fuel with
  | zero =>
    intro id visited h
    simp [canReach] at h
  | succ fuel ih =>
    intro id visited h
    by_cases h1 : base = id ∧ visited ≠ []
    · obtain ⟨rfl, hne⟩ := h1
      exact ⟨Relation.ReflTransGen.refl, fun hv => absurd hv hne⟩
    · by_cases h2 : id ∈ visited
      · rw [canReach, if_neg h1, if_pos h2] at h
        cases h
      · rw [canReach_succ_iff p chars base fuel id visited h1 h2] at h
        obtain ⟨s, hs, hcr⟩ := h
        have hrec := (ih s (id :: visited) hcr).1
        exact ⟨Relation.ReflTransGen.head hs hrec,
          fun _ => Relation.TransGen.head' hs hrec⟩

theorem canReach_complete (p : Parser) (chars : Nat → Character)
    (base : Nat) :
    ∀ (l : List Nat) (fuel id : Nat) (visited : List Nat),
      Walks (LeftStep p chars) id l base →
      id ∉ visited → l.Nodup → (∀ x ∈ l, x ∉ visited ∧ x ≠ id) →
      l.length + 2 ≤ fuel →
      canReach p chars base fuel id visited = true := by
  intro l
  induction l with
  | nil =>
    intro fuel id visited hw h2 _ _ hfuel
    match fuel, hfuel with
    | f + 2, _ =>
      cases hw with
      | single hr =>
        by_cases h1 : base = id ∧ visited ≠ []
        · rw [canReach, if_pos h1]
        · rw [canReach_succ_iff p chars base (f + 1) id visited h1 h2]
          refine ⟨base, hr, ?_⟩
          rw [canReach, if_pos ⟨rfl, by simp⟩]
  | cons c l' ihl =>
    intro fuel id visited hw h2 hnd hnot hfuel
    match fuel, hfuel with
    | f + 2, hfuel =>
      cases hw with
      | cons hr hw' =>
        by_cases h1 : base = id ∧ visited ≠ []
        · rw [canReach, if_pos h1]
        · rw [canReach_succ_iff p chars base (f + 1) id visited h1 h2]
          refine ⟨c, hr, ?_⟩
          have hcnot := hnot c (by simp)
          refine ihl (f + 1) c (id :: visited) hw' ?_
            (List.nodup_cons.mp hnd).2 ?_ ?_
          · simp only [List.mem_cons, not_or]
            exact ⟨hcnot.2, hcnot.1⟩
          · intro x hx
            have hxnot := hnot x (by simp [hx])
            refine ⟨?_, ?_⟩
            · simp only [List.mem_cons, not_or]
              exact ⟨hxnot.2, hxnot.1⟩
            · intro hxc
              subst hxc
              exact (List.nodup_cons.mp hnd).1 hx
          · simp only [List.length_cons] at hfuel
            omega

/-- C2: `validate` reports `LeftRecursion(i)` exactly when `i` lies on a
non-empty cycle of potential left-edges (`Seq` contributing its first child
always and its second child only under a transparent first child, `Choice`
its second child only under a fallible or error-prone first child, the
unary wrappers their target, and `Series` nothing), with the edge gates
read off the character fixpoint. -/
theorem validate_leftRecursion_iff (p : Parser) (i : Nat) :
    ValidationError.leftRecursion i ∈ validate p ↔
      ((p.instructions.lookup i).isSome = true ∧
        Relation.TransGen (LeftStep p (characterize p)) i i) := by
  constructor
  · intro h
    simp only [validate, List.mem_filterMap] at h
    obtain ⟨id, hmem, hif⟩ := h
    by_cases hcr : canReach p (characterize p) id (reachFuel p) id [] = true
    · rw [if_pos hcr] at hif
      have hid : id = i := by
        cases hif
        rfl
      subst hid
      exact ⟨(Store.lookup_isSome_iff_mem_keys _ _).mpr hmem,
        (canReach_sound p (characterize p) id _ id [] hcr).2 rfl⟩
    · rw [if_neg hcr] at hif
      cases hif
  · rintro ⟨hsome, htrans⟩
    obtain ⟨l, hw⟩ := transGen_iff_walks.mp htrans
    obtain ⟨l', hw', hnotin, hnodup, _⟩ := walks_simple hw
    -- every intermediate node resolves in the store
    have hmem : ∀ x ∈ l', (p.instructions.lookup x).isSome = true := by
      intro x hx
      obtain ⟨l₁, l₂, _, hxw, _⟩ := walks_split hw' hx
      cases hxw with
      | single hr =>
        simp only [LeftStep, leftSuccs] at hr
        cases hlk : p.instructions.lookup x with
        | none => rw [hlk] at hr; cases hr
        | some _ => simp
      | cons hr _ =>
        simp only [LeftStep, leftSuccs] at hr
        cases hlk : p.instructions.lookup x with
        | none => rw [hlk] at hr; cases hr
        | some _ => simp
    have hkey : ∀ x, (p.instructions.lookup x).isSome = true →
        x ∈ p.instructions.keys := fun x hx =>
      (Store.lookup_isSome_iff_mem_keys _ _).mp hx
    -- bound the simple cycle's length by the store size
    have hlen : l'.length + 2 ≤ reachFuel p := by
      have hsub : (i :: l').toFinset ⊆ p.instructions.keys.toFinset := by
        intro x hx
        simp only [List.toFinset_cons, Finset.mem_insert,
          List.mem_toFinset] at hx
        rcases hx with rfl | hx
        · exact List.mem_toFinset.mpr (hkey x hsome)
        · exact List.mem_toFinset.mpr (hkey x (hmem x hx))
      have hnodup' : (i :: l').Nodup := List.nodup_cons.mpr ⟨hnotin, hnodup⟩
      have hcard : (i :: l').length ≤ p.instructions.keys.length := by
        calc (i :: l').length = (i :: l').toFinset.card :=
              (List.toFinset_card_of_nodup hnodup').symm
          _ ≤ p.instructions.keys.toFinset.card := Finset.card_le_card hsub
          _ ≤ p.instructions.keys.length := p.instructions.keys.toFinset_card_le
      simp only [List.length_cons] at hcard
      simp only [reachFuel]
      have : p.instructions.keys.length = p.instructions.entries.length := by
        simp [Store.keys]
      omega
    have hcr := canReach_complete p (characterize p) i l' (reachFuel p) i []
      hw' (by simp) hnodup (fun x hx => ⟨by simp, fun hxi => hnotin (hxi ▸ hx)⟩)
      hlen
    simp only [validate, List.mem_filterMap]
    exact ⟨i, hkey i hsome, by rw [if_pos hcr]⟩

/-! ## Work constants (`src/runtime/mod.rs`) -/

def SERIES_WORK : Nat := 1
def CACHE_WORK : Nat := 25
def LABEL_WORK : Nat := 50
def MARK_ERROR_WORK : Nat := 50
def NOT_AHEAD_WORK : Nat := 1
def CHOICE_WORK : Nat := 1
def SEQ_WORK : Nat := 1
def MAX_UNCACHED_WORK : Nat := 250

/-! ## Cache insertion (`src/core/transformation/cache_insertion.rs`,
`src/core/walk.rs`) -/

/-- The depth-first walk iterator (`src/core/walk.rs`): pop a candidate,
skip it if already visited, otherwise yield it and push its successors (the
source pushes them reversed onto a vector stack, so they pop in source
order; the list here keeps them in source order at the front). Fuel bounds
the number of loop iterations. -/
def walkAux (p : Parser) : Nat → List Nat → List Nat → List Nat
  | 0, _, _ => []
  | fuel + 1, queue, visited =>
    match queue with
    | [] => []
    | candidate :: rest =>
      if candidate ∈ visited then walkAux p fuel rest visited
      else
        match p.instructions.lookup candidate with
        | none => []
        | some instr =>
          candidate ::
            walkAux p fuel (instr.successors ++ rest) (candidate :: visited)

/-- Fuel covering every possible queue pop: the initial element plus one
push per successor edge of the graph, per visit. -/
def walkFuel (p : Parser) : Nat :=
  1 + (p.instructions.entries.map fun e => e.2.successors.length + 1).sum

/-- `Parser::walk` as the list of visited ids in visit order. -/
def walkList (p : Parser) : List Nat :=
  walkAux p (walkFuel p) [p.start] []

/-- Modelled from the spec: `compute_duplicated_predecessors`, whose
definition is absent from this tree (`insert_cache_points` calls it but
only `compute_predecessors` survives in `src/core/structure.rs`); per spec
section 4.7, predecessors map an id to the set of ids that reference it
directly, so each referencing instruction is listed once. -/
def dupPredecessors (p : Parser) (i : Nat) : List Nat :=
  (p.instructions.entries.filter fun e => i ∈ e.2.successors).map Prod.fst

/-- `Parser::inherent_complexity`. -/
def inherentComplexity : Instruction → Nat
  | .seq _ _ => SEQ_WORK
  | .choice _ _ => CHOICE_WORK
  | .notAhead _ => NOT_AHEAD_WORK
  | .delegate _ => 0
  | .cache _ _ => CACHE_WORK
  | .error _ _ => MARK_ERROR_WORK
  | .label _ _ => LABEL_WORK
  | .series _ => SERIES_WORK

/-- `Parser::work` / `Parser::complexity_unvisited`: estimate the work of
an instruction's subtree, with `none` on a cycle (the Rust version mutates
one visited set and restores it before returning, so it is passed
functionally). -/
def workI (p : Parser) : Nat → Nat → List Nat → Option Nat
  | 0, _, _ => none
  | fuel + 1, id, visited =>
    if id ∈ visited then none
    else
      match p.instructions.lookup id with
      | none => none
      | some instr =>
        match instr with
        | .seq a b | .choice a b => do
          let fa ← workI p fuel a (id :: visited)
          let fb ← workI p fuel b (id :: visited)
          pure (fa + fb + inherentComplexity instr)
        | .notAhead t | .error t _ | .label t _ | .delegate t =>
          (workI p fuel t (id :: visited)).map (· + inherentComplexity instr)
        | .cache _ _ | .series _ => some (inherentComplexity instr)

/-- Fuel sufficient for `work`'s search: one level per stored
instruction. -/
def workFuel (p : Parser) : Nat :=
  p.instructions.entries.length + 1

/-- The debug symbol stored for an instruction
(`self.debug_symbols[&id]`). -/
def symbolOf (p : Parser) (id : Nat) : DebugSymbol :=
  ((p.debugSymbols.find? fun e => e.1 = id).map Prod.snd).getD ∅

/-- The wrap decision of one `insert_cache_points` iteration: skip `Cache`
nodes, nodes with fewer than two predecessors, and nodes whose estimated
work is known and at most `MAX_UNCACHED_WORK`. -/
def shouldWrapB (preds : Nat → List Nat) (gp : Parser) (id : Nat) : Bool :=
  match gp.instructions.lookup id with
  | none => false
  | some instr =>
    !instr.isCache && decide (2 ≤ (preds id).length) &&
      !(match workI gp (workFuel gp) id [] with
        | some v => decide (v ≤ MAX_UNCACHED_WORK)
        | none => false)

/-- The predecessor-rewrite step of `insert_cache_points`: replace every
edge of `predId`'s instruction that pointed at `id` with `newId`. -/
def redirectOne (id newId : Nat) (acc : Parser) (predId : Nat) : Parser :=
  match acc.instructions.lookup predId with
  | none => acc
  | some pins =>
    { acc with
      instructions :=
        acc.instructions.set predId
          (pins.remapped fun old => if old = id then newId else old) }

/-- The wrap action of one `insert_cache_points` iteration: insert a fresh
`Cache(id, None)` node and redirect every predecessor's edges that pointed
at `id` to the new node. -/
def doWrap (preds : Nat → List Nat) (gp : Parser) (id : Nat) : Parser :=
  (preds id).foldl (redirectOne id gp.instructions.nextId)
    (gp.insertI (Instruction.cache id none) (symbolOf gp id)).2

/-- One iteration of the `insert_cache_points` loop. -/
def cacheStep (preds : Nat → List Nat) (gp : Parser) (id : Nat) : Parser :=
  if shouldWrapB preds gp id then doWrap preds gp id else gp

/-- `Parser::insert_cache_points`: predecessors are computed once on the
incoming graph, then the reverse walk order is processed. -/
def insertCachePoints (g : Parser) : Parser :=
  (walkList g).reverse.foldl (cacheStep (dupPredecessors g)) g

/-- Every stored key is below `next_id` (every store built through
`reserve`/`set` satisfies this). -/
def keysBoundedB (p : Parser) : Bool :=
  p.instructions.entries.all fun e => e.1 < p.instructions.nextId

theorem find?_setEntries {V : Type} (k : Nat) (v : V)
    (l : List (Nat × V)) (j : Nat) :
    ((Store.setEntries k v l).find? fun e => e.1 = j) =
      if j = k then some (k, v) else l.find? fun e => e.1 = j := by
  induction l with
  | nil =>
    by_cases hj : j = k
    · subst hj
      simp [Store.setEntries]
    · rw [if_neg hj]
      show List.find? (fun e => e.1 = j) [(k, v)] = List.find? _ []
      rw [List.find?_cons_of_neg _
        (by simp only [decide_eq_true_eq]; exact fun h => hj h.symm)]
  | cons e rest ih =>
    simp only [Store.setEntries]
    by_cases hlt : k < e.1
    · rw [if_pos hlt]
      by_cases hj : j = k
      · subst hj
        simp
      · rw [List.find?_cons_of_neg _ (by simpa using fun h => hj h.symm),
          if_neg hj]
    · rw [if_neg hlt]
      by_cases heq : k = e.1
      · rw [if_pos heq]
        by_cases hj : j = k
        · subst hj
          rw [List.find?_cons_of_pos _ (by simp [heq.symm]), if_pos rfl]
        · rw [List.find?_cons_of_neg _ (by simpa using fun h => hj h.symm),
            if_neg hj,
            List.find?_cons_of_neg _
              (by simp only [decide_eq_true_eq]
                  exact fun h => hj (heq.trans h).symm)]
      · rw [if_neg heq]
        by_cases hej : e.1 = j
        · have hjk : ¬j = k := fun h => heq (h ▸ hej).symm
          rw [List.find?_cons_of_pos _ (by simpa using hej),
            List.find?_cons_of_pos _ (by simpa using hej), if_neg hjk]
        · rw [List.find?_cons_of_neg _ (by simpa using hej),
            List.find?_cons_of_neg _ (by simpa using hej), ih]

theorem Store.lookup_set {V : Type} (s : Store V) (k : Nat) (v : V)
    (j : Nat) :
    (s.set k v).lookup j = if j = k then some v else s.lookup j := by
  show ((Store.setEntries k v s.entries).find? fun e => e.1 = j).map
      Prod.snd = _
  rw [find?_setEntries]
  by_cases hj : j = k
  · rw [if_pos hj, if_pos hj]
    rfl
  · rw [if_neg hj, if_neg hj]
    rfl

theorem mem_setEntries {V : Type} (k : Nat) (v : V)
    (l : List (Nat × V)) :
    ∀ e' ∈ Store.setEntries k v l, e' = (k, v) ∨ e' ∈ l := by
  induction l with
  | nil =>
    intro e' he'
    simp only [Store.setEntries, List.mem_singleton] at he'
    exact Or.inl he'
  | cons e rest ih =>
    intro e' he'
    simp only [Store.setEntries] at he'
    by_cases hlt : k < e.1
    · rw [if_pos hlt] at he'
      rcases List.mem_cons.mp he' with rfl | hin
      · exact Or.inl rfl
      · exact Or.inr hin
    · rw [if_neg hlt] at he'
      by_cases heq : k = e.1
      · rw [if_pos heq] at he'
        rcases List.mem_cons.mp he' with rfl | hin
        · exact Or.inl rfl
        · exact Or.inr (List.mem_cons_of_mem _ hin)
      · rw [if_neg heq] at he'
        rcases List.mem_cons.mp he' with rfl | hin
        · exact Or.inr (List.mem_cons_self _ _)
        · rcases ih e' hin with h | h
          · exact Or.inl h
          · exact Or.inr (List.mem_cons_of_mem _ h)

theorem redirectOne_lookup (id newId : Nat) (acc : Parser)
    (predId j : Nat) :
    (redirectOne id newId acc predId).instructions.lookup j =
      if j = predId then
        (acc.instructions.lookup predId).map
          (Instruction.remapped fun old => if old = id then newId else old)
      else acc.instructions.lookup j := by
  unfold redirectOne
  cases h : acc.instructions.lookup predId with
  | none =>
    by_cases hj : j = predId
    · rw [if_pos hj, hj, h]
      rfl
    · rw [if_neg hj]
  | some pins =>
    show (acc.instructions.set predId _).lookup j = _
    rw [Store.lookup_set]
    by_cases hj : j = predId
    · rw [if_pos hj, if_pos hj]
      rfl
    · rw [if_neg hj, if_neg hj]

theorem redirectOne_nextId (id newId : Nat) (acc : Parser) (predId : Nat) :
    acc.instructions.nextId ≤
      (redirectOne id newId acc predId).instructions.nextId := by
  unfold redirectOne
  cases h : acc.instructions.lookup predId with
  | none => exact le_rfl
  | some pins => exact le_max_left _ _

theorem redirectFold_nextId (id newId : Nat) (l : List Nat) :
    ∀ acc : Parser, acc.instructions.nextId ≤
      (l.foldl (redirectOne id newId) acc).instructions.nextId := by
  induction l with
  | nil => exact fun _ => le_rfl
  | cons a rest ih =>
    intro acc
    exact le_trans (redirectOne_nextId id newId acc a) (ih _)

theorem redirectFold_lookup_notmem (id newId : Nat) (l : List Nat)
    (j : Nat) (hj : j ∉ l) :
    ∀ acc : Parser,
      (l.foldl (redirectOne id newId) acc).instructions.lookup j =
        acc.instructions.lookup j := by
  induction l with
  | nil => exact fun _ => rfl
  | cons a rest ih =>
    intro acc
    have hja : ¬j = a := fun h => hj (h ▸ List.mem_cons_self a rest)
    rw [List.foldl_cons, ih (fun h => hj (List.mem_cons_of_mem a h)),
      redirectOne_lookup, if_neg hja]

theorem redirectFold_lookup_mem (id newId : Nat) (l : List Nat)
    (pid : Nat) (hmem : pid ∈ l) (hnd : l.Nodup) :
    ∀ acc : Parser,
      (l.foldl (redirectOne id newId) acc).instructions.lookup pid =
        (acc.instructions.lookup pid).map
          (Instruction.remapped fun old => if old = id then newId else old) := by
  induction l with
  | nil => cases hmem
  | cons a rest ih =>
    intro acc
    rcases List.mem_cons.mp hmem with rfl | hmem'
    · rw [List.foldl_cons,
        redirectFold_lookup_notmem id newId rest pid
          (List.nodup_cons.mp hnd).1,
        redirectOne_lookup]
      rw [if_pos rfl]
    · rw [List.foldl_cons, ih hmem' (List.nodup_cons.mp hnd).2,
        redirectOne_lookup,
        if_neg (fun h => (List.nodup_cons.mp hnd).1
          (show a ∈ rest by rw [← h]; exact hmem'))]

theorem insertI_lookup (p : Parser) (ins : Instruction) (sym : DebugSymbol)
    (j : Nat) :
    (p.insertI ins sym).2.instructions.lookup j =
      if j = p.instructions.nextId then some ins
      else p.instructions.lookup j := by
  show (p.instructions.set p.instructions.nextId ins).lookup j = _
  exact Store.lookup_set _ _ _ _

theorem insertI_nextId (p : Parser) (ins : Instruction)
    (sym : DebugSymbol) :
    (p.insertI ins sym).2.instructions.nextId =
      p.instructions.nextId + 1 := by
  show max p.instructions.nextId (p.instructions.nextId + 1) = _
  exact Nat.max_eq_right (Nat.le_succ _)

theorem doWrap_lookup_high (preds : Nat → List Nat) (gp : Parser)
    (id c : Nat) (hc : ∀ pid ∈ preds id, pid ≠ c) :
    (doWrap preds gp id).instructions.lookup c =
      if c = gp.instructions.nextId then some (Instruction.cache id none)
      else gp.instructions.lookup c := by
  unfold doWrap
  rw [redirectFold_lookup_notmem _ _ _ c
    (fun h => hc c h rfl), insertI_lookup]

theorem doWrap_nextId (preds : Nat → List Nat) (gp : Parser) (id : Nat) :
    gp.instructions.nextId + 1 ≤ (doWrap preds gp id).instructions.nextId := by
  unfold doWrap
  calc gp.instructions.nextId + 1
      = (gp.insertI (Instruction.cache id none)
          (symbolOf gp id)).2.instructions.nextId :=
        (insertI_nextId _ _ _).symm
    _ ≤ _ := redirectFold_nextId _ _ _ _

theorem cacheStep_nextId (preds : Nat → List Nat) (gp : Parser) (id : Nat) :
    gp.instructions.nextId ≤ (cacheStep preds gp id).instructions.nextId := by
  unfold cacheStep
  by_cases h : shouldWrapB preds gp id = true
  · rw [if_pos h]
    exact le_trans (Nat.le_succ _) (doWrap_nextId preds gp id)
  · rw [if_neg h]

theorem Store.boundedB_set {V : Type} (s : Store V) (k : Nat) (v : V)
    (h : s.entries.all (fun e => e.1 < s.nextId) = true) :
    (s.set k v).entries.all
      (fun e => e.1 < (s.set k v).nextId) = true := by
  rw [List.all_eq_true] at h ⊢
  intro e' he'
  rcases mem_setEntries k v s.entries e' he' with rfl | hmem
  · simp only [decide_eq_true_eq]
    exact lt_of_lt_of_le (Nat.lt_succ_self k) (le_max_right _ _)
  · simp only [decide_eq_true_eq]
    exact lt_of_lt_of_le (by simpa using h e' hmem) (le_max_left _ _)

theorem keysBoundedB_redirectOne (id newId : Nat) (acc : Parser)
    (predId : Nat) (h : keysBoundedB acc = true) :
    keysBoundedB (redirectOne id newId acc predId) = true := by
  unfold redirectOne
  cases hl : acc.instructions.lookup predId with
  | none => exact h
  | some pins => exact Store.boundedB_set _ _ _ h

theorem keysBoundedB_redirectFold (id newId : Nat) (l : List Nat) :
    ∀ acc : Parser, keysBoundedB acc = true →
      keysBoundedB (l.foldl (redirectOne id newId) acc) = true := by
  induction l with
  | nil => exact fun _ h => h
  | cons a rest ih =>
    intro acc h
    exact ih _ (keysBoundedB_redirectOne id newId acc a h)

theorem keysBoundedB_insertI (p : Parser) (ins : Instruction)
    (sym : DebugSymbol) (h : keysBoundedB p = true) :
    keysBoundedB (p.insertI ins sym).2 = true :=
  Store.boundedB_set _ _ _ h

theorem keysBoundedB_doWrap (preds : Nat → List Nat) (gp : Parser)
    (id : Nat) (h : keysBoundedB gp = true) :
    keysBoundedB (doWrap preds gp id) = true :=
  keysBoundedB_redirectFold _ _ _ _ (keysBoundedB_insertI gp _ _ h)

theorem keysBoundedB_cacheStep (preds : Nat → List Nat) (gp : Parser)
    (id : Nat) (h : keysBoundedB gp = true) :
    keysBoundedB (cacheStep preds gp id) = true := by
  unfold cacheStep
  by_cases hw : shouldWrapB preds gp id = true
  · rw [if_pos hw]
    exact keysBoundedB_doWrap preds gp id h
  · rw [if_neg hw]
    exact h

theorem lookup_none_of_bounded (gp : Parser)
    (hb : keysBoundedB gp = true) (c : Nat)
    (hc : gp.instructions.nextId ≤ c) :
    gp.instructions.lookup c = none := by
  unfold Store.lookup
  cases hfind : gp.instructions.entries.find? fun e => e.1 = c with
  | none => rfl
  | some e =>
    exfalso
    have hmem := List.mem_of_find?_eq_some hfind
    have hkey := List.find?_some hfind
    simp only [decide_eq_true_eq] at hkey
    rw [keysBoundedB, List.all_eq_true] at hb
    have := hb e hmem
    simp only [decide_eq_true_eq] at this
    omega

theorem cacheStep_lookup_high (preds : Nat → List Nat) (gp : Parser)
    (id c : Nat) (hc : ∀ pid ∈ preds id, pid ≠ c) :
    (cacheStep preds gp id).instructions.lookup c =
      if shouldWrapB preds gp id = true ∧ c = gp.instructions.nextId
      then some (Instruction.cache id none)
      else gp.instructions.lookup c := by
  unfold cacheStep
  by_cases hw : shouldWrapB preds gp id = true
  · rw [if_pos hw, doWrap_lookup_high preds gp id c hc]
    by_cases hcn : c = gp.instructions.nextId
    · rw [if_pos hcn, if_pos ⟨hw, hcn⟩]
    · rw [if_neg hcn, if_neg fun hh => hcn hh.2]
  · rw [if_neg hw, if_neg fun hh => hw hh.1]

theorem fold_wrapped_iff (g0 : Parser) (preds : Nat → List Nat)
    (hpred : ∀ i pid, pid ∈ preds i → pid < g0.instructions.nextId)
    (i : Nat) :
    ∀ (L : List Nat) (gp : Parser),
      g0.instructions.nextId ≤ gp.instructions.nextId →
      keysBoundedB gp = true →
      ((∃ c, g0.instructions.nextId ≤ c ∧
          (L.foldl (cacheStep preds) gp).instructions.lookup c =
            some (Instruction.cache i none)) ↔
        ((∃ c, g0.instructions.nextId ≤ c ∧
            gp.instructions.lookup c = some (Instruction.cache i none)) ∨
          ∃ k, L.get? k = some i ∧
            shouldWrapB preds ((L.take k).foldl (cacheStep preds) gp) i
              = true)) := by
  intro L
  induction L with
  | nil =>
    intro gp _ _
    simp
  | cons a rest ih =>
    intro gp hmono hbound
    have hmono' : g0.instructions.nextId ≤
        (cacheStep preds gp a).instructions.nextId :=
      le_trans hmono (cacheStep_nextId preds gp a)
    have hbound' := keysBoundedB_cacheStep preds gp a hbound
    have hkey : ∀ c, g0.instructions.nextId ≤ c →
        (cacheStep preds gp a).instructions.lookup c =
          if shouldWrapB preds gp a = true ∧ c = gp.instructions.nextId
          then some (Instruction.cache a none)
          else gp.instructions.lookup c := by
      intro c hc
      exact cacheStep_lookup_high preds gp a c
        (fun pid hp heq => absurd (heq ▸ hpred a pid hp) (by omega))
    have hstepiff :
        (∃ c, g0.instructions.nextId ≤ c ∧
            (cacheStep preds gp a).instructions.lookup c =
              some (Instruction.cache i none)) ↔
          ((∃ c, g0.instructions.nextId ≤ c ∧
              gp.instructions.lookup c = some (Instruction.cache i none)) ∨
            (a = i ∧ shouldWrapB preds gp a = true)) := by
      constructor
      · rintro ⟨c, hge, heq⟩
        rw [hkey c hge] at heq
        by_cases hcond : shouldWrapB preds gp a = true ∧
            c = gp.instructions.nextId
        · rw [if_pos hcond] at heq
          cases heq
          exact Or.inr ⟨rfl, hcond.1⟩
        · rw [if_neg hcond] at heq
          exact Or.inl ⟨c, hge, heq⟩
      · rintro (⟨c, hge, heq⟩ | ⟨rfl, hw⟩)
        · refine ⟨c, hge, ?_⟩
          rw [hkey c hge]
          have hcn : ¬c = gp.instructions.nextId := by
            intro hcn
            rw [lookup_none_of_bounded gp hbound c (hcn ▸ le_rfl)] at heq
            cases heq
          rw [if_neg fun hh => hcn hh.2]
          exact heq
        · refine ⟨gp.instructions.nextId, hmono, ?_⟩
          rw [hkey _ hmono, if_pos ⟨hw, rfl⟩]
    rw [List.foldl_cons, ih (cacheStep preds gp a) hmono' hbound']
    constructor
    · rintro (hfirst | ⟨k, hget, hsw⟩)
      · rcases hstepiff.mp hfirst with hold | ⟨rfl, hw⟩
        · exact Or.inl hold
        · exact Or.inr ⟨0, rfl, hw⟩
      · exact Or.inr ⟨k + 1, hget, hsw⟩
    · rintro (hold | ⟨k, hget, hsw⟩)
      · exact Or.inl (hstepiff.mpr (Or.inl hold))
      · match k, hget, hsw with
        | 0, hget, hsw =>
          cases hget
          exact Or.inl (hstepiff.mpr (Or.inr ⟨rfl, hsw⟩))
        | k + 1, hget, hsw =>
          exact Or.inr ⟨k, hget, hsw⟩

theorem dupPredecessors_nodup (g : Parser)
    (hnd : g.instructions.keys.Nodup) (i : Nat) :
    (dupPredecessors g i).Nodup := by
  unfold dupPredecessors
  have hsub : (g.instructions.entries.filter
      fun e => i ∈ e.2.successors).Sublist g.instructions.entries :=
    List.filter_sublist _
  exact List.Nodup.sublist (hsub.map Prod.fst) hnd

theorem dupPredecessors_lt (g : Parser) (hb : keysBoundedB g = true)
    (i pid : Nat) (hp : pid ∈ dupPredecessors g i) :
    pid < g.instructions.nextId := by
  unfold dupPredecessors at hp
  obtain ⟨e, he, rfl⟩ := List.mem_map.mp hp
  have hmem := List.mem_of_mem_filter he
  rw [keysBoundedB, List.all_eq_true] at hb
  simpa using hb e hmem

/-- A concrete graph whose instruction `3` sits on a cycle (`Seq(4, 3)`
references itself through its second child), is reachable, is not a
`Cache`, and has the three distinct predecessors `1`, `2` and `3`. -/
def cacheDemoParser : Parser :=
  { start := 0
    instructions := ⟨5, [(0, .choice 1 2), (1, .delegate 3), (2, .delegate 3),
                         (3, .seq 4 3), (4, .series 0)]⟩
    seriesStore := ⟨1, [(0, ⟨[⟨false, [(97, 97)]⟩]⟩)]⟩
    labelsStore := ⟨0, []⟩
    expectedsStore := ⟨0, []⟩
    debugSymbols := [] }

/-- C5 counterexample: `insert_cache_points` wraps instruction `3` of
`cacheDemoParser` in a fresh `Cache(3, None)` node (stored at the fresh id
`5`) even though its estimated work is `None` — the estimation bails out on
the cycle — so "work exceeds MAX_UNCACHED_WORK (250)" does not hold for any
numeric estimate; the claim's iff would leave `3` unwrapped. -/
theorem insertCachePoints_wraps_cyclic_work :
    (insertCachePoints cacheDemoParser).instructions.lookup 5 =
        some (Instruction.cache 3 none) ∧
      workI cacheDemoParser (workFuel cacheDemoParser) 3 [] = none ∧
      2 ≤ (dupPredecessors cacheDemoParser 3).length ∧
      cacheDemoParser.instructions.lookup 3 = some (.seq 4 3) ∧
      (Instruction.seq 4 3).isCache = false :=
  ⟨by decide, by decide, by decide, by decide, rfl⟩

/-- C5 (amended): over any well-formed store, an instruction `i` gains a
fresh `Cache(i, None)` wrapper (a store entry at an id at or above the
original `next_id`) if and only if `i` occurs in the reverse walk at a
position where, in the graph state current at that iteration, `i` is not a
`Cache`, has two or more predecessors (per the predecessor map of the
original graph), and its estimated work is *not* known to be at most
`MAX_UNCACHED_WORK` — that is, the estimate either exceeds 250 or is `None`
because the estimation hit a cycle. Moreover the wrap action rewrites every
predecessor's instruction so that each edge that pointed at `id` points at
the fresh `Cache` node instead. -/
theorem insertCachePoints_characterization (g : Parser)
    (hb : keysBoundedB g = true) (hnd : g.instructions.keys.Nodup) :
    (∀ i,
      (∃ c, g.instructions.nextId ≤ c ∧
          (insertCachePoints g).instructions.lookup c =
            some (Instruction.cache i none)) ↔
        ∃ k, ((walkList g).reverse).get? k = some i ∧
          shouldWrapB (dupPredecessors g)
            ((((walkList g).reverse).take k).foldl
              (cacheStep (dupPredecessors g)) g) i = true) ∧
    (∀ (gp : Parser) (id : Nat),
      shouldWrapB (dupPredecessors g) gp id = true →
      ∀ pid ∈ dupPredecessors g id, pid < gp.instructions.nextId →
        (doWrap (dupPredecessors g) gp id).instructions.lookup pid =
          (gp.instructions.lookup pid).map
            (Instruction.remapped fun old =>
              if old = id then gp.instructions.nextId else old)) := by
  constructor
  · intro i
    have hiff := fold_wrapped_iff g (dupPredecessors g)
      (fun j pid hp => dupPredecessors_lt g hb j pid hp) i
      ((walkList g).reverse) g le_rfl hb
    rw [insertCachePoints] at *
    rw [hiff]
    constructor
    · rintro (⟨c, hge, heq⟩ | h)
      · rw [lookup_none_of_bounded g hb c hge] at heq
        cases heq
      · exact h
    · exact Or.inr
  · intro gp id _ pid hpid hplt
    unfold doWrap
    rw [redirectFold_lookup_mem _ _ _ pid hpid
      (dupPredecessors_nodup g hnd id), insertI_lookup,
      if_neg (by omega)]

/-- Witness for `insertCachePoints_characterization` at a concrete
graph. -/
theorem insertCachePoints_characterization_witness :
    keysBoundedB cacheDemoParser = true ∧
      cacheDemoParser.instructions.keys.Nodup ∧
      ((∃ c, cacheDemoParser.instructions.nextId ≤ c ∧
          (insertCachePoints cacheDemoParser).instructions.lookup c =
            some (Instruction.cache 3 none)) ↔
        ∃ k, ((walkList cacheDemoParser).reverse).get? k = some 3 ∧
          shouldWrapB (dupPredecessors cacheDemoParser)
            ((((walkList cacheDemoParser).reverse).take k).foldl
              (cacheStep (dupPredecessors cacheDemoParser))
              cacheDemoParser) 3 = true) :=
  ⟨by decide, by decide,
    (insertCachePoints_characterization cacheDemoParser (by decide)
      (by decide)).1 3⟩

/-! ## IR loader (`src/core/load.rs`) -/

/-- `ClassIr`. -/
structure ClassIr where
  negated : Bool
  ranges : List (Nat × Nat)
deriving DecidableEq, Repr

/-- `InstructionIr`: one decoded IR instruction (the JSON layer of serde is
out of scope; these are the values it produces). In this tree the `label`
field is deserialized as a plain `String`: the validating `Label`
deserializer at the bottom of `src/core/load.rs` is never referenced. -/
inductive InstructionIr where
  | seq (first second : Nat) (ruleName : Option String)
  | choice (first second : Nat) (ruleName : Option String)
  | notAhead (target : Nat) (ruleName : Option String)
  | error (target expected : Nat) (ruleName : Option String)
  | label (target : Nat) (labelStr : String) (ruleName : Option String)
  | delegate (target : Nat) (ruleName : Option String)
  | series (classes : List ClassIr) (ruleName : Option String)
deriving DecidableEq, Repr

/-- `Ir` (after the version check, which both variants perform during
deserialization). -/
inductive Ir where
  | errorIr (message : String)
  | success (start : Nat) (instructions : List InstructionIr)
deriving DecidableEq, Repr

/-- `Loader`. -/
structure Loader where
  parser : Parser
  ruleNames : List (Nat × String)
  instructionCount : Nat
deriving DecidableEq

/-- `Loader::load_reference`. -/
def loadReference (count id : Nat) : Except String Nat :=
  if id < count then .ok id
  else .error ("Invalid IR: Illegal instruction ID: " ++ toString id)

/-- The series construction inside `load_instruction`: classes are rebuilt
range by range through `Class::insert` and appended through
`Series::append`. -/
def buildSeries (classes : List ClassIr) : Series :=
  classes.foldl
    (fun s cir =>
      s.append
        (cir.ranges.foldl (fun c r => c.insert r.1 r.2)
          (Class.new cir.negated)))
    Series.empty

/-- `Loader::load_instruction`. The instruction is inserted (taking the
next dense id) and its rule name recorded; no validation is applied to
label strings. -/
def loadInstruction (st : Loader) (ir : InstructionIr) :
    Except String Loader := do
  let count := st.instructionCount
  let (id, parser, ruleName) ←
    match ir with
    | .seq first second ruleName => do
      let first ← loadReference count first
      let second ← loadReference count second
      let (id, p) := st.parser.insertI (.seq first second) ∅
      pure (id, p, ruleName)
    | .choice first second ruleName => do
      let first ← loadReference count first
      let second ← loadReference count second
      let (id, p) := st.parser.insertI (.choice first second) ∅
      pure (id, p, ruleName)
    | .notAhead target ruleName => do
      let target ← loadReference count target
      let (id, p) := st.parser.insertI (.notAhead target) ∅
      pure (id, p, ruleName)
    | .error target expected ruleName => do
      let target ← loadReference count target
      let expected ← loadReference count expected
      let (id, p) := st.parser.insertI (.error target expected) ∅
      pure (id, p, ruleName)
    | .label target labelStr ruleName => do
      let (labelId, p0) := st.parser.labelsStore.insertS labelStr
      let p1 := { st.parser with labelsStore := p0 }
      let target ← loadReference count target
      let (id, p) := p1.insertI (.label target labelId) ∅
      pure (id, p, ruleName)
    | .delegate target ruleName => do
      let target ← loadReference count target
      let (id, p) := st.parser.insertI (.delegate target) ∅
      pure (id, p, ruleName)
    | .series classes ruleName => do
      let (seriesId, s0) := st.parser.seriesStore.insertS (buildSeries classes)
      let p1 := { st.parser with seriesStore := s0 }
      let (id, p) := p1.insertI (.series seriesId) ∅
      pure (id, p, ruleName)
  let name := ruleName.getD "<anonymous>"
  pure { st with parser := parser, ruleNames := (id, name) :: st.ruleNames }

/-- `Parser::load_ir` / `Loader::load_ir`: an embedded error message is
returned as-is; otherwise the start reference is resolved and every
instruction loaded in order. -/
def loadIr (ir : Ir) : Except String (Parser × List (Nat × String)) := do
  match ir with
  | .errorIr message => .error message
  | .success start instructions => do
    let count := instructions.length
    let startId ← loadReference count start
    let init : Loader :=
      { parser := { Parser.newParser with start := startId }
        ruleNames := []
        instructionCount := count }
    let final ← instructions.foldlM loadInstruction init
    pure (final.parser, final.ruleNames)

/-- Lower-case ASCII letter. -/
def isLowerAZ (c : Char) : Bool := decide ('a' ≤ c) && decide (c ≤ 'z')

/-- Continuation of a full match of `[a-z]+(_[a-z]+)*` after at least one
letter of the current group has been consumed. -/
def snakeAux : List Char → Bool
  | [] => true
  | c :: rest =>
    if isLowerAZ c then snakeAux rest
    else if c = '_' then
      match rest with
      | [] => false
      | d :: rest' => isLowerAZ d && snakeAux rest'
    else false

/-- Whether a string matches `[a-z]+(_[a-z]+)*` in full — the label shape
the spec requires (`Regex::is_match` in the dead validator would moreover
accept any string merely containing such a substring). -/
def snakeLabel (s : String) : Bool :=
  match s.toList with
  | [] => false
  | c :: rest => isLowerAZ c && snakeAux rest

/-- An IR whose label instruction carries the label string "BAD", which
does not match `[a-z]+(_[a-z]+)*` (it contains no lower-case letter at
all, so even an unanchored search fails). -/
def badLabelIr : Ir :=
  .success 1 [.series [⟨false, [(97, 97)]⟩] none, .label 0 "BAD" none]

/-- C8: loading an IR with a malformed label string succeeds. The
`InstructionIr::Label` field is deserialized as a plain `String`; the
validating `Label::deserialize` at `src/core/load.rs:219-232` is dead code,
so no "invalid label" `Load` error can arise, and the loaded grammar here
is also free of left recursion, so `Parser::load` constructs a parser
instead of failing. -/
theorem load_accepts_invalid_label :
    snakeLabel "BAD" = false ∧
      (loadIr badLabelIr).toOption.isSome = true ∧
      ((loadIr badLabelIr).toOption.map fun loaded =>
          (loaded.1.instructions.lookup 1, loaded.1.labelsStore.lookup 0,
            validate loaded.1)) =
        some (some (.label 0 0), some "BAD", []) :=
  ⟨by decide, by decide, by decide⟩

/-! ## Runtime parse results (`src/runtime/result.rs`) -/

/-- `Grouping`: what a match node represents at its boundary (label and
expected ids stand for the generated enum values). -/
inductive Grouping where
  | noGroup
  | label (l : Nat)
  | error (e : Nat)
deriving DecidableEq, Repr

/-- `MATCH_CHILDREN`. -/
def MATCH_CHILDREN : Nat := 4

/-- `Match`: distances, work, grouping, and offset-tagged children
(`Refc` sharing is identity in a value model). -/
inductive PMatch where
  | mk (scanDistance work distance : Nat) (errorDistance : Option Nat)
      (grouping : Grouping) (children : List (Nat × PMatch))

namespace PMatch

def scanDistance : PMatch → Nat
  | .mk s _ _ _ _ _ => s

def work : PMatch → Nat
  | .mk _ w _ _ _ _ => w

def distance : PMatch → Nat
  | .mk _ _ d _ _ _ => d

def errorDistance : PMatch → Option Nat
  | .mk _ _ _ e _ _ => e

def grouping : PMatch → Grouping
  | .mk _ _ _ _ g _ => g

def children : PMatch → List (Nat × PMatch)
  | .mk _ _ _ _ _ c => c

/-- `Match::error_free`. -/
def errorFree (distance scanDistance work : Nat) : PMatch :=
  .mk scanDistance work distance none .noGroup []

/-- `Match::empty`. -/
def empty (scanDistance work : Nat) : PMatch :=
  errorFree 0 scanDistance work

/-- `Match::merge_children`. -/
def mergeChildren (first second : PMatch) : List (Nat × PMatch) :=
  first.children ++
    second.children.map fun oc => (oc.1 + first.distance, oc.2)

/-- `Match::combine`. -/
def combine (first second : PMatch) : PMatch :=
  let scanDistance :=
    max first.scanDistance (first.distance + second.scanDistance)
  let work := first.work + second.work
  let distance := first.distance + second.distance
  let errorDistance :=
    first.errorDistance.orElse fun _ =>
      second.errorDistance.map fun d => first.distance + d
  if first.grouping = .noGroup ∧ second.grouping = .noGroup ∧
      first.children.length + second.children.length ≤ MATCH_CHILDREN then
    .mk scanDistance work distance errorDistance .noGroup
      (mergeChildren first second)
  else
    .mk scanDistance work distance errorDistance .noGroup
      [(0, first), (first.distance, second)]

/-- `Match::extend_scan_distance`. -/
def extendScanDistance (m : PMatch) (amount : Nat) : PMatch :=
  .mk (max m.scanDistance amount) m.work m.distance m.errorDistance
    m.grouping m.children

/-- `Match::with_work`. -/
def withWork (m : PMatch) (amount : Nat) : PMatch :=
  .mk m.scanDistance amount m.distance m.errorDistance m.grouping m.children

/-- `Match::add_work`. -/
def addWork (m : PMatch) (amount : Nat) : PMatch :=
  .mk m.scanDistance (m.work + amount) m.distance m.errorDistance
    m.grouping m.children

/-- `Match::unboxed`: wrap a shared match as the only child of a fresh
grouping-free parent. -/
def unboxed (m : PMatch) : PMatch :=
  .mk m.scanDistance m.work m.distance m.errorDistance .noGroup [(0, m)]

end PMatch

/-- `ParseResult`. -/
inductive PResult where
  | matched (m : PMatch)
  | unmatched (scanDistance work : Nat)

namespace PResult

/-- `ParseResult::is_match`. -/
def isMatch : PResult → Bool
  | .matched _ => true
  | .unmatched _ _ => false

/-- `ParseResult::error_distance` (a failure counts as an error at
offset 0). -/
def errorDistance : PResult → Option Nat
  | .matched m => m.errorDistance
  | .unmatched _ _ => some 0

/-- `ParseResult::is_error_free`. -/
def isErrorFree (r : PResult) : Bool := r.errorDistance.isNone

/-- `ParseResult::scan_distance`. -/
def scanDistance : PResult → Nat
  | .matched m => m.scanDistance
  | .unmatched s _ => s

/-- `ParseResult::work`. -/
def work : PResult → Nat
  | .matched m => m.work
  | .unmatched _ w => w

/-- `ParseResult::distance`. -/
def distance : PResult → Nat
  | .matched m => m.distance
  | .unmatched _ _ => 0

/-- `ParseResult::extend_scan_distance`. -/
def extendScanDistance : PResult → Nat → PResult
  | .matched m, amount => .matched (m.extendScanDistance amount)
  | .unmatched s w, amount => .unmatched (max s amount) w

/-- `ParseResult::with_work`. -/
def withWork : PResult → Nat → PResult
  | .matched m, amount => .matched (m.withWork amount)
  | .unmatched s _, amount => .unmatched s amount

/-- `ParseResult::add_work`. -/
def addWork : PResult → Nat → PResult
  | .matched m, amount => .matched (m.addWork amount)
  | .unmatched s w, amount => .unmatched s (w + amount)

/-- `ParseResult::negate`. -/
def negate : PResult → PResult
  | .matched m => .unmatched m.scanDistance m.work
  | .unmatched s w => .matched (PMatch.empty s w)

/-- `ParseResult::mark_error`. -/
def markError (r : PResult) (expected : Nat) : PResult :=
  match r with
  | .matched m =>
    if m.grouping = .noGroup then
      .matched (.mk m.scanDistance m.work m.distance (some 0)
        (.error expected) m.children)
    else
      .matched (.mk m.scanDistance m.work m.distance (some 0)
        (.error expected) [(0, m)])
  | .unmatched _ _ => r

/-- `ParseResult::label`. -/
def labelR (r : PResult) (l : Nat) : PResult :=
  match r with
  | .matched m =>
    if m.grouping = .noGroup then
      .matched (.mk m.scanDistance m.work m.distance m.errorDistance
        (.label l) m.children)
    else
      .matched (.mk m.scanDistance m.work m.distance m.errorDistance
        (.label l) [(0, m)])
  | .unmatched _ _ => r

end PResult

/-! ## Runtime machine (`src/runtime/context.rs`, `src/runtime/cache.rs`,
state wiring per `src/core/generation.rs`) -/

/-- A machine state: the bottom `FINISH_STATE` sentinel or stage `stage` of
instruction `id` (the `STATE_{id}_{stage}` constants of the emitter). -/
inductive MState where
  | finish
  | st (id stage : Nat)
deriving DecidableEq, Repr

/-- A packrat cache entry (`Entry` in `src/runtime/cache.rs`). -/
inductive CacheEntry where
  | matched (m : PMatch)
  | unmatched (scanDistance work : Nat)

/-- The interpreter state (`Context`): both stacks have their top first
and are never empty in the source (`Stack` owns a dedicated top slot);
result slots are `MaybeUninit`, hence `Option`. -/
structure Config where
  position : Nat
  stateStack : List MState
  resultStack : List (Option PResult)
  cache : List ((Nat × Nat) × CacheEntry)

/-- `Cache::get`. -/
def cacheGet (cache : List ((Nat × Nat) × CacheEntry)) (slot position : Nat) :
    Option PResult :=
  match (cache.find? fun e => e.1 = (slot, position)).map Prod.snd with
  | some (.matched m) => some (.matched (PMatch.unboxed m))
  | some (.unmatched s w) => some (.unmatched s w)
  | none => none

/-- `BTreeMap::insert` on the cache. -/
def cacheInsertEntry (cache : List ((Nat × Nat) × CacheEntry))
    (slot position : Nat) (entry : CacheEntry) :
    List ((Nat × Nat) × CacheEntry) :=
  ((slot, position), entry) ::
    cache.filter fun e => !(decide (e.1 = (slot, position)))

/-- `state_seq_start` (also the shape of `choice`/`not_ahead`/`error`/
`label` starts): replace the top state by the continuation and push the
child's start state. -/
def stateSeqStart (first continuation : MState) (c : Config) :
    Option Config :=
  match c.stateStack with
  | _ :: stk => some { c with stateStack := first :: continuation :: stk }
  | [] => none

/-- `state_seq_middle`: on a match, stash the first result and run the
second child; otherwise charge the work and propagate the failure. -/
def stateSeqMiddle (second continuation : MState) (c : Config) :
    Option Config :=
  match c.resultStack with
  | some r :: rs =>
    if r.isMatch then
      match c.stateStack with
      | _ :: stk =>
        some { c with
          stateStack := second :: continuation :: stk
          resultStack := none :: some r :: rs }
      | [] => none
    else
      match c.stateStack with
      | _ :: s :: stk =>
        some { c with
          stateStack := s :: stk
          resultStack := some (r.addWork SEQ_WORK) :: rs }
      | _ => none
  | _ => none

/-- `state_seq_end`: pop the second result and combine it with the stashed
first match; a failed second child rewinds the position and widens the
scan distance. -/
def stateSeqEnd (c : Config) : Option Config :=
  match c.resultStack with
  | some second :: some (PResult.matched first) :: rs =>
    match c.stateStack with
    | _ :: s :: stk =>
      match second with
      | .matched m2 =>
        some { c with
          stateStack := s :: stk
          resultStack :=
            some (.matched ((PMatch.combine first m2).addWork SEQ_WORK))
              :: rs }
      | .unmatched sd w =>
        some { c with
          position := c.position - first.distance
          stateStack := s :: stk
          resultStack :=
            some (.unmatched
              (max first.scanDistance (first.distance + sd))
              (w + first.work + SEQ_WORK)) :: rs }
    | _ => none
  | _ => none

/-- `state_choice_middle`: commit to an error-free first result, otherwise
rewind, stash it and try the second branch. -/
def stateChoiceMiddle (second continuation : MState) (c : Config) :
    Option Config :=
  match c.resultStack with
  | some r :: rs =>
    if r.isErrorFree then
      match c.stateStack with
      | _ :: s :: stk =>
        some { c with
          stateStack := s :: stk
          resultStack := some (r.addWork CHOICE_WORK) :: rs }
      | _ => none
    else
      match c.stateStack with
      | _ :: stk =>
        some { c with
          position := c.position - r.distance
          stateStack := second :: continuation :: stk
          resultStack := none :: some r :: rs }
      | [] => none
  | _ => none

/-- `state_choice_end`: merge the stashed first result with the second
branch's result; with two matches the branch with the nearer error is kept
(`use_second` is `first_dist > second_dist`), an error-free second branch
always wins, and the loser contributes its scan distance and work. -/
def stateChoiceEnd (c : Config) : Option Config :=
  match c.resultStack with
  | some second :: some first :: rs =>
    match c.stateStack with
    | _ :: s :: stk =>
      let work := first.work + second.work + CHOICE_WORK
      match first with
      | .unmatched fsd _ =>
        some { c with
          stateStack := s :: stk
          resultStack :=
            some ((second.extendScanDistance fsd).withWork work) :: rs }
      | .matched fm =>
        match second with
        | .unmatched ssd _ =>
          some { c with
            position := c.position + fm.distance
            stateStack := s :: stk
            resultStack :=
              some (.matched ((fm.extendScanDistance ssd).withWork work))
                :: rs }
        | .matched sm =>
          match fm.errorDistance with
          | none => none
          | some firstDist =>
            let useSecond :=
              match sm.errorDistance with
              | some secondDist => decide (firstDist > secondDist)
              | none => true
            if useSecond then
              some { c with
                stateStack := s :: stk
                resultStack :=
                  some (.matched
                    ((sm.extendScanDistance fm.scanDistance).withWork work))
                    :: rs }
            else
              some { c with
                position := c.position - sm.distance + fm.distance
                stateStack := s :: stk
                resultStack :=
                  some (.matched
                    ((fm.extendScanDistance sm.scanDistance).withWork work))
                    :: rs }
    | _ => none
  | _ => none

/-- `state_not_ahead_end`: rewind and negate. -/
def stateNotAheadEnd (c : Config) : Option Config :=
  match c.resultStack with
  | some r :: rs =>
    match c.stateStack with
    | _ :: s :: stk =>
      some { c with
        position := c.position - r.distance
        stateStack := s :: stk
        resultStack := some (r.negate.addWork NOT_AHEAD_WORK) :: rs }
    | _ => none
  | _ => none

/-- `state_error_end`. -/
def stateErrorEnd (expected : Nat) (c : Config) : Option Config :=
  match c.resultStack with
  | some r :: rs =>
    match c.stateStack with
    | _ :: s :: stk =>
      some { c with
        stateStack := s :: stk
        resultStack :=
          some ((r.markError expected).addWork MARK_ERROR_WORK) :: rs }
    | _ => none
  | _ => none

/-- `state_label_end`. -/
def stateLabelEnd (labelId : Nat) (c : Config) : Option Config :=
  match c.resultStack with
  | some r :: rs =>
    match c.stateStack with
    | _ :: s :: stk =>
      some { c with
        stateStack := s :: stk
        resultStack := some ((r.labelR labelId).addWork LABEL_WORK) :: rs }
    | _ => none
  | _ => none

/-- `state_cache_start`: a hit installs the cached result and returns; a
miss proceeds into the target. -/
def stateCacheStart (slot : Nat) (target continuation : MState)
    (c : Config) : Option Config :=
  match cacheGet c.cache slot c.position with
  | some r =>
    match c.stateStack with
    | _ :: s :: stk =>
      match c.resultStack with
      | _ :: rs =>
        some { c with
          position := c.position + r.distance
          stateStack := s :: stk
          resultStack := some r :: rs }
      | [] => none
    | _ => none
  | none =>
    match c.stateStack with
    | _ :: stk => some { c with stateStack := target :: continuation :: stk }
    | [] => none

/-- `state_cache_end`: results above the work threshold are stored (with
their work reset to `CACHE_WORK`) and replaced by the freshly shared
copy. -/
def stateCacheEnd (slot : Nat) (c : Config) : Option Config :=
  match c.resultStack with
  | some r :: rs =>
    match c.stateStack with
    | _ :: s :: stk =>
      if r.work > MAX_UNCACHED_WORK then
        let stored := r.withWork CACHE_WORK
        let position := c.position - stored.distance
        match stored with
        | .matched m =>
          some { c with
            stateStack := s :: stk
            resultStack := some (.matched (PMatch.unboxed m)) :: rs
            cache := cacheInsertEntry c.cache slot position (.matched m) }
        | .unmatched sd w =>
          some { c with
            stateStack := s :: stk
            resultStack := some (.unmatched sd w) :: rs
            cache :=
              cacheInsertEntry c.cache slot position (.unmatched sd w) }
      else
        some { c with stateStack := s :: stk }
    | _ => none
  | _ => none

/-- `state_delegate`: tail-jump. -/
def stateDelegate (target : MState) (c : Config) : Option Config :=
  match c.stateStack with
  | _ :: stk => some { c with stateStack := target :: stk }
  | [] => none

/-- The generated series matcher body (`generate_series_function`): test
classes in order, reporting the examined length; on a mismatch or end of
input report one byte past the last examined offset. -/
def seriesRun (input : List Nat) (position : Nat) :
    List Class → Nat → Bool × Nat
  | [], len => (true, len)
  | cls :: rest, len =>
    match input.get? (position + len) with
    | some ch =>
      if (if cls.negated then
            !(cls.ranges.any fun r => decide (r.1 ≤ ch) && decide (ch ≤ r.2))
          else cls.ranges.any fun r => decide (r.1 ≤ ch) && decide (ch ≤ r.2))
      then seriesRun input position rest (len + 1)
      else (false, len + 1)
    | none => (false, len + 1)

/-- The full series matcher: the never series matches nothing and scans
nothing. -/
def seriesMatch (sv : Series) (input : List Nat) (position : Nat) :
    Bool × Nat :=
  if sv.isNeverS then (false, 0) else seriesRun input position sv.classes 0

/-- `state_series`. -/
def stateSeries (sv : Series) (input : List Nat) (c : Config) :
    Option Config :=
  let (matched, length) := seriesMatch sv input c.position
  match c.stateStack with
  | _ :: s :: stk =>
    match c.resultStack with
    | _ :: rs =>
      if matched then
        some { c with
          position := c.position + length
          stateStack := s :: stk
          resultStack :=
            some (.matched (PMatch.errorFree length length SERIES_WORK))
              :: rs }
      else
        some { c with
          stateStack := s :: stk
          resultStack := some (.unmatched length SERIES_WORK) :: rs }
    | [] => none
  | _ => none

/-- The per-state dispatcher (`generate_state_function` /
`generate_dispatch_function`): stage `k` of instruction `id` invokes the
matching context primitive with the target's stage-0 state and the
continuation `STATE_{id}_{k+1}`. -/
def stepAt (g : Parser) (input : List Nat) (id : Nat) :
    Instruction → Nat → Config → Option Config
  | .seq first _, 0, c => stateSeqStart (.st first 0) (.st id 1) c
  | .seq _ second, 1, c => stateSeqMiddle (.st second 0) (.st id 2) c
  | .seq _ _, 2, c => stateSeqEnd c
  | .choice first _, 0, c => stateSeqStart (.st first 0) (.st id 1) c
  | .choice _ second, 1, c => stateChoiceMiddle (.st second 0) (.st id 2) c
  | .choice _ _, 2, c => stateChoiceEnd c
  | .notAhead target, 0, c => stateSeqStart (.st target 0) (.st id 1) c
  | .notAhead _, 1, c => stateNotAheadEnd c
  | .error target _, 0, c => stateSeqStart (.st target 0) (.st id 1) c
  | .error _ expected, 1, c => stateErrorEnd expected c
  | .label target _, 0, c => stateSeqStart (.st target 0) (.st id 1) c
  | .label _ labelId, 1, c => stateLabelEnd labelId c
  | .cache target (some slot), 0, c =>
    stateCacheStart slot (.st target 0) (.st id 1) c
  | .cache _ (some slot), 1, c => stateCacheEnd slot c
  | .delegate target, 0, c => stateDelegate (.st target 0) c
  | .series sid, 0, c =>
    match g.seriesStore.lookup sid with
    | some sv => stateSeries sv input c
    | none => none
  | _, _, _ => none

def step (g : Parser) (input : List Nat) (c : Config) : Option Config :=
  match c.stateStack.head? with
  | some (.st id stage) =>
    match g.instructions.lookup id with
    | none => none
    | some instr => stepAt g input id instr stage c
  | _ => none

/-- `Context::new`: the state stack holds the sentinel below the
grammar's start state, the result stack one uninitialised slot. -/
def initConfig (g : Parser) : Config :=
  { position := 0
    stateStack := [.st g.start 0, .finish]
    resultStack := [none]
    cache := [] }

/-- `n` steps of the interpreter loop. -/
def stepN (g : Parser) (input : List Nat) : Nat → Config → Option Config
  | 0, c => some c
  | n + 1, c => (step g input c).bind (stepN g input n)

/-- `Context::finish` with fuel: dispatch until the top state is the
sentinel, then read off the result (`take_result` requires the slot to be
populated). The returned configuration is the one at loop exit. -/
def runFuel (g : Parser) (input : List Nat) :
    Nat → Config → Option (PResult × Config)
  | 0, _ => none
  | fuel + 1, c =>
    match c.stateStack.head? with
    | some .finish =>
      match c.resultStack.head? with
      | some (some r) => some (r, c)
      | _ => none
    | some (.st _ _) => (step g input c).bind (runFuel g input fuel)
    | none => none

/-- `Context::run`. -/
def runMachine (g : Parser) (input : List Nat) (fuel : Nat) :
    Option (PResult × Config) :=
  runFuel g input fuel (initConfig g)

/-! ## Stack discipline invariant (C3) -/

/-- States per instruction (`Generator::states` in
`src/core/generation.rs`). -/
def stageCount : Instruction → Nat
  | .seq _ _ | .choice _ _ => 3
  | .notAhead _ | .error _ _ | .label _ _ | .cache _ _ => 2
  | .delegate _ | .series _ => 1

/-- A program state is well formed when its instruction exists and its
stage is one the emitter generates. -/
def stateOkB (g : Parser) : MState → Bool
  | .finish => false
  | .st id stage =>
    match g.instructions.lookup id with
    | none => false
    | some instr => decide (stage < stageCount instr)

/-- The states that own a stashed result slot beneath the working top:
exactly the `seq_end` / `choice_end` continuations (stage 2). -/
def isStash : MState → Bool
  | .st _ 2 => true
  | _ => false

def stageOf : MState → Nat
  | .finish => 0
  | .st _ s => s

/-- The populated-top condition: a resumed continuation (stage at least 1)
finds its child's result in the top slot, and at loop exit the lone slot is
populated. -/
def TopOk : List MState → List (Option PResult) → Prop
  | [], rs => ∃ r, rs = [some r]
  | s :: _, rs => 1 ≤ stageOf s → ∃ r rs', rs = some r :: rs'

/-- The stack-discipline invariant over the program states `rest` (the
state stack without its bottom sentinel) and the result stack: every state
is well formed, the result stack is exactly one working slot plus one
stash per stage-2 continuation (the depth synchronisation of the two
stacks), every non-top state is a resumed continuation, and the top slot
is populated whenever the top state expects a child result. -/
def InvParts (g : Parser) (rest : List MState)
    (rs : List (Option PResult)) : Prop :=
  (∀ s ∈ rest, stateOkB g s = true) ∧
    rs.length = 1 + rest.countP isStash ∧
    (∀ s ∈ rest.tail, 1 ≤ stageOf s) ∧
    TopOk rest rs

/-- The machine invariant: the state stack is the program states over the
sentinel, and `InvParts` holds. -/
def Inv (g : Parser) (c : Config) : Prop :=
  ∃ rest, c.stateStack = rest ++ [MState.finish] ∧
    InvParts g rest c.resultStack

/-- Decidable form of the populated-top condition. -/
def topOkB : List MState → List (Option PResult) → Bool
  | [], [some _] => true
  | [], _ => false
  | s :: _, rs =>
    if 1 ≤ stageOf s then
      match rs with
      | some _ :: _ => true
      | _ => false
    else true

/-- Decidable form of the invariant, for concrete witnesses. -/
def InvB (g : Parser) (c : Config) : Bool :=
  decide (c.stateStack.getLast? = some MState.finish) &&
    (c.stateStack.dropLast.all fun s => stateOkB g s) &&
    decide (c.resultStack.length =
      1 + c.stateStack.dropLast.countP isStash) &&
    (c.stateStack.dropLast.tail.all fun s => decide (1 ≤ stageOf s)) &&
    topOkB c.stateStack.dropLast c.resultStack

theorem topOkB_iff (rest : List MState) (rs : List (Option PResult)) :
    topOkB rest rs = true ↔ TopOk rest rs := by
  cases rest with
  | nil =>
    cases rs with
    | nil => simp [topOkB, TopOk]
    | cons x rs' =>
      cases x with
      | none => simp [topOkB, TopOk]
      | some r =>
        cases rs' with
        | nil => simp [topOkB, TopOk]
        | cons y ys => simp [topOkB, TopOk]
  | cons s srest =>
    by_cases hstage : 1 ≤ stageOf s
    · cases rs with
      | nil => simp [topOkB, TopOk, hstage]
      | cons x rs' =>
        cases x with
        | none => simp [topOkB, TopOk, hstage]
        | some r => simp [topOkB, TopOk, hstage]
    · cases rs with
      | nil => simp [topOkB, TopOk, hstage]
      | cons x rs' =>
        cases x with
        | none => simp [topOkB, TopOk, hstage]
        | some r => simp [topOkB, TopOk, hstage]

theorem invB_iff_inv (g : Parser) (c : Config) :
    InvB g c = true ↔ Inv g c := by
  unfold InvB Inv InvParts
  constructor
  · intro h
    simp only [Bool.and_eq_true, decide_eq_true_eq, List.all_eq_true] at h
    obtain ⟨⟨⟨⟨hlast, hok⟩, hlen⟩, htail⟩, htop⟩ := h
    have hne : c.stateStack ≠ [] := by
      intro hnil
      rw [hnil] at hlast
      cases hlast
    have hgl : c.stateStack.getLast hne = MState.finish := by
      have h2 := List.getLast?_eq_getLast c.stateStack hne
      rw [h2] at hlast
      exact Option.some.inj hlast
    have hdecomp :
        c.stateStack = c.stateStack.dropLast ++ [MState.finish] := by
      rw [← hgl]
      exact (List.dropLast_append_getLast hne).symm
    exact ⟨c.stateStack.dropLast, hdecomp, fun s hs => hok s hs, hlen,
      fun s hs => by simpa using htail s hs, (topOkB_iff _ _).mp htop⟩
  · rintro ⟨rest, heq, hok, hlen, htail, htop⟩
    have hdrop : c.stateStack.dropLast = rest := by
      rw [heq]
      exact List.dropLast_concat
    have hlast : c.stateStack.getLast? = some MState.finish := by
      rw [heq]
      exact List.getLast?_concat _
    simp only [Bool.and_eq_true, decide_eq_true_eq, List.all_eq_true, hdrop,
      hlast]
    exact ⟨⟨⟨⟨trivial, fun s hs => hok s hs⟩, hlen⟩,
      fun s hs => by simpa using htail s hs⟩, (topOkB_iff _ _).mpr htop⟩

theorem invParts_push (g : Parser) {id stage : Nat} {tgt cont : MState}
    {rest0 : List MState} {rs : List (Option PResult)}
    (h : InvParts g (.st id stage :: rest0) rs)
    (hok1 : stateOkB g tgt = true) (hok2 : stateOkB g cont = true)
    (hstash : isStash cont = isStash (.st id stage))
    (hstage : 1 ≤ stageOf cont)
    (htgt0 : isStash tgt = false) (htgts : stageOf tgt = 0) :
    InvParts g (tgt :: cont :: rest0) rs := by
  obtain ⟨hok, hlen, htail, _⟩ := h
  refine ⟨?_, ?_, ?_, ?_⟩
  · intro s hs
    rcases List.mem_cons.mp hs with rfl | hs'
    · exact hok1
    · rcases List.mem_cons.mp hs' with rfl | hs''
      · exact hok2
      · exact hok s (List.mem_cons_of_mem _ hs'')
  · rw [hlen]
    simp [List.countP_cons, hstash, htgt0]
  · intro s hs
    rcases List.mem_cons.mp hs with rfl | hs'
    · exact hstage
    · exact htail s hs'
  · intro hcontra
    rw [htgts] at hcontra
    omega

theorem invParts_stashPush (g : Parser) {id stage : Nat} {tgt cont : MState}
    {rest0 : List MState} {rs0 : List (Option PResult)} {r : PResult}
    (h : InvParts g (.st id stage :: rest0) (some r :: rs0))
    (hok1 : stateOkB g tgt = true) (hok2 : stateOkB g cont = true)
    (htop0 : isStash (.st id stage) = false)
    (hcontstash : isStash cont = true) (hstage : 1 ≤ stageOf cont)
    (htgt0 : isStash tgt = false) (htgts : stageOf tgt = 0) :
    InvParts g (tgt :: cont :: rest0) (none :: some r :: rs0) := by
  obtain ⟨hok, hlen, htail, _⟩ := h
  refine ⟨?_, ?_, ?_, ?_⟩
  · intro s hs
    rcases List.mem_cons.mp hs with rfl | hs'
    · exact hok1
    · rcases List.mem_cons.mp hs' with rfl | hs''
      · exact hok2
      · exact hok s (List.mem_cons_of_mem _ hs'')
  · simp only [List.length_cons] at hlen ⊢
    rw [List.countP_cons, List.countP_cons, hcontstash, htgt0]
    rw [List.countP_cons, htop0] at hlen
    simp only [Bool.false_eq_true, if_false, if_true, if_pos] at hlen ⊢
    omega
  · intro s hs
    rcases List.mem_cons.mp hs with rfl | hs'
    · exact hstage
    · exact htail s hs'
  · intro hcontra
    rw [htgts] at hcontra
    omega

theorem mem_of_tail {a : MState} {l : List MState} (h : a ∈ l.tail) :
    a ∈ l := by
  cases l with
  | nil => cases h
  | cons x xs => exact List.mem_cons_of_mem _ h

theorem invParts_setPop (g : Parser) {id stage : Nat}
    {rest0 : List MState} {rs0 : List (Option PResult)}
    {x : Option PResult} {rnew : PResult}
    (h : InvParts g (.st id stage :: rest0) (x :: rs0))
    (htop0 : isStash (.st id stage) = false) :
    InvParts g rest0 (some rnew :: rs0) := by
  obtain ⟨hok, hlen, htail, _⟩ := h
  have hlen' : rs0.length + 1 = 1 + rest0.countP isStash := by
    simp only [List.length_cons] at hlen
    rw [List.countP_cons, htop0] at hlen
    simp only [Bool.false_eq_true, if_false] at hlen
    omega
  refine ⟨fun s hs => hok s (List.mem_cons_of_mem _ hs),
    by simpa using hlen', fun s hs => htail s (mem_of_tail hs), ?_⟩
  cases rest0 with
  | nil =>
    have hz : rs0 = [] := by
      simp only [List.countP_nil] at hlen'
      exact List.length_eq_zero.mp (by omega)
    subst hz
    exact ⟨rnew, rfl⟩
  | cons s srest => exact fun _ => ⟨rnew, rs0, rfl⟩

theorem invParts_popSetPop (g : Parser) {id : Nat}
    {rest0 : List MState} {rs0 : List (Option PResult)}
    {a b : Option PResult} {rnew : PResult}
    (h : InvParts g (.st id 2 :: rest0) (a :: b :: rs0)) :
    InvParts g rest0 (some rnew :: rs0) := by
  obtain ⟨hok, hlen, htail, _⟩ := h
  have hlen' : rs0.length + 1 = 1 + rest0.countP isStash := by
    simp only [List.length_cons] at hlen
    rw [List.countP_cons] at hlen
    simp only [isStash, if_true, if_pos] at hlen
    omega
  refine ⟨fun s hs => hok s (List.mem_cons_of_mem _ hs),
    by simpa using hlen', fun s hs => htail s (mem_of_tail hs), ?_⟩
  cases rest0 with
  | nil =>
    have hz : rs0 = [] := by
      simp only [List.countP_nil] at hlen'
      exact List.length_eq_zero.mp (by omega)
    subst hz
    exact ⟨rnew, rfl⟩
  | cons s srest => exact fun _ => ⟨rnew, rs0, rfl⟩

theorem invParts_replaceTop (g : Parser) {id stage : Nat} {tgt : MState}
    {rest0 : List MState} {rs : List (Option PResult)}
    (h : InvParts g (.st id stage :: rest0) rs)
    (hok1 : stateOkB g tgt = true)
    (hstash : isStash tgt = isStash (.st id stage))
    (hstage0 : stageOf tgt = 0) :
    InvParts g (tgt :: rest0) rs := by
  obtain ⟨hok, hlen, htail, _⟩ := h
  refine ⟨?_, ?_, htail, ?_⟩
  · intro s hs
    rcases List.mem_cons.mp hs with rfl | hs'
    · exact hok1
    · exact hok s (List.mem_cons_of_mem _ hs')
  · rw [hlen]
    simp [List.countP_cons, hstash]
  · intro hcontra
    rw [hstage0] at hcontra
    omega

theorem inv_glue_push (g : Parser) {id stage : Nat} {tgt cont : MState}
    {rest0 : List MState} {c c' : Config}
    (hss : c.stateStack = MState.st id stage :: (rest0 ++ [MState.finish]))
    (hparts : InvParts g (MState.st id stage :: rest0) c.resultStack)
    (hok1 : stateOkB g tgt = true) (hok2 : stateOkB g cont = true)
    (hstash : isStash cont = isStash (MState.st id stage))
    (hstage : 1 ≤ stageOf cont)
    (htgt0 : isStash tgt = false) (htgts : stageOf tgt = 0)
    (hc' : c' = { c with stateStack := tgt :: cont :: c.stateStack.tail }) :
    Inv g c' := by
  subst hc'
  refine ⟨tgt :: cont :: rest0, by rw [hss]; rfl, ?_⟩
  exact invParts_push g hparts hok1 hok2 hstash hstage htgt0 htgts

theorem inv_glue_stashPush (g : Parser) {id stage : Nat} {tgt cont : MState}
    {rest0 : List MState} {c c' : Config} {r : PResult}
    {rs0 : List (Option PResult)} {p' : Nat}
    (hss : c.stateStack = MState.st id stage :: (rest0 ++ [MState.finish]))
    (hparts : InvParts g (MState.st id stage :: rest0) c.resultStack)
    (hrs : c.resultStack = some r :: rs0)
    (hok1 : stateOkB g tgt = true) (hok2 : stateOkB g cont = true)
    (htop0 : isStash (MState.st id stage) = false)
    (hcontstash : isStash cont = true) (hstage : 1 ≤ stageOf cont)
    (htgt0 : isStash tgt = false) (htgts : stageOf tgt = 0)
    (hc' : c' = { position := p'
                  stateStack := tgt :: cont :: c.stateStack.tail
                  resultStack := none :: some r :: rs0
                  cache := c.cache }) :
    Inv g c' := by
  subst hc'
  refine ⟨tgt :: cont :: rest0, by rw [hss]; rfl, ?_⟩
  rw [hrs] at hparts
  exact invParts_stashPush g hparts hok1 hok2 htop0 hcontstash hstage
    htgt0 htgts

theorem inv_glue_setPop (g : Parser) {id stage : Nat}
    {rest0 : List MState} {c c' : Config} {x : Option PResult}
    {rs : List (Option PResult)} {p' : Nat} {rnew : PResult}
    {cache' : List ((Nat × Nat) × CacheEntry)}
    (hss : c.stateStack = MState.st id stage :: (rest0 ++ [MState.finish]))
    (hparts : InvParts g (MState.st id stage :: rest0) c.resultStack)
    (hstash : isStash (MState.st id stage) = false)
    (hrs : c.resultStack = x :: rs)
    (hc' : c' = { position := p', stateStack := c.stateStack.tail,
                  resultStack := some rnew :: rs, cache := cache' }) :
    Inv g c' := by
  subst hc'
  refine ⟨rest0, by rw [hss]; rfl, ?_⟩
  rw [hrs] at hparts
  exact invParts_setPop g hparts hstash

theorem inv_glue_popSetPop (g : Parser) {id : Nat}
    {rest0 : List MState} {c c' : Config} {a b : Option PResult}
    {rs : List (Option PResult)} {p' : Nat} {rnew : PResult}
    {cache' : List ((Nat × Nat) × CacheEntry)}
    (hss : c.stateStack = MState.st id 2 :: (rest0 ++ [MState.finish]))
    (hparts : InvParts g (MState.st id 2 :: rest0) c.resultStack)
    (hrs : c.resultStack = a :: b :: rs)
    (hc' : c' = { position := p', stateStack := c.stateStack.tail,
                  resultStack := some rnew :: rs, cache := cache' }) :
    Inv g c' := by
  subst hc'
  refine ⟨rest0, by rw [hss]; rfl, ?_⟩
  rw [hrs] at hparts
  exact invParts_popSetPop g hparts

theorem inv_glue_replaceTop (g : Parser) {id stage : Nat} {tgt : MState}
    {rest0 : List MState} {c c' : Config}
    (hss : c.stateStack = MState.st id stage :: (rest0 ++ [MState.finish]))
    (hparts : InvParts g (MState.st id stage :: rest0) c.resultStack)
    (hok1 : stateOkB g tgt = true)
    (hstash : isStash tgt = isStash (MState.st id stage))
    (htgts : stageOf tgt = 0)
    (hc' : c' = { c with stateStack := tgt :: c.stateStack.tail }) :
    Inv g c' := by
  subst hc'
  refine ⟨tgt :: rest0, by rw [hss]; rfl, ?_⟩
  exact invParts_replaceTop g hparts hok1 hstash htgts

/-! ### Inverting the primitives

Each lemma recovers, from a successful primitive transition, the shape of
the stacks before the step and the produced configuration. -/

theorem stateSeqStart_inv {first cont : MState} {c c' : Config}
    (h : stateSeqStart first cont c = some c') :
    c' = { c with stateStack := first :: cont :: c.stateStack.tail } := by
  unfold stateSeqStart at h
  rcases hss : c.stateStack with _ | ⟨t, stk⟩
  · rw [hss] at h
    exact Option.noConfusion h
  · rw [hss] at h
    exact (Option.some.inj h).symm

theorem stateDelegate_inv {target : MState} {c c' : Config}
    (h : stateDelegate target c = some c') :
    c' = { c with stateStack := target :: c.stateStack.tail } := by
  unfold stateDelegate at h
  rcases hss : c.stateStack with _ | ⟨t, stk⟩
  · rw [hss] at h
    exact Option.noConfusion h
  · rw [hss] at h
    exact (Option.some.inj h).symm

theorem stateSeqMiddle_inv {second cont : MState} {c c' : Config}
    (h : stateSeqMiddle second cont c = some c') :
    ∃ r rs, c.resultStack = some r :: rs ∧
      (c' = { position := c.position
              stateStack := second :: cont :: c.stateStack.tail
              resultStack := none :: some r :: rs
              cache := c.cache } ∨
       c' = { position := c.position
              stateStack := c.stateStack.tail
              resultStack := some (r.addWork SEQ_WORK) :: rs
              cache := c.cache }) := by
  unfold stateSeqMiddle at h
  rcases hrs : c.resultStack with _ | ⟨x, rs⟩
  · rw [hrs] at h
    exact Option.noConfusion h
  rcases x with _ | r
  · rw [hrs] at h
    exact Option.noConfusion h
  simp only [hrs] at h
  refine ⟨r, rs, rfl, ?_⟩
  by_cases hm : r.isMatch = true
  · rw [if_pos hm] at h
    rcases hss : c.stateStack with _ | ⟨t, stk⟩
    · rw [hss] at h
      exact Option.noConfusion h
    · rw [hss] at h
      left
      exact (Option.some.inj h).symm
  · rw [if_neg hm] at h
    rcases hss : c.stateStack with _ | ⟨t, _ | ⟨s, stk⟩⟩
    · rw [hss] at h
      exact Option.noConfusion h
    · rw [hss] at h
      exact Option.noConfusion h
    · rw [hss] at h
      right
      exact (Option.some.inj h).symm

theorem stateSeqEnd_inv {c c' : Config} (h : stateSeqEnd c = some c') :
    ∃ a b rs p' rnew, c.resultStack = a :: b :: rs ∧
      c' = { position := p', stateStack := c.stateStack.tail,
             resultStack := some rnew :: rs, cache := c.cache } := by
  unfold stateSeqEnd at h
  rcases hrs : c.resultStack with _ | ⟨x, xs⟩
  · rw [hrs] at h
    exact Option.noConfusion h
  rcases xs with _ | ⟨y, rs⟩
  · rcases x with _ | s2
    · rw [hrs] at h
      exact Option.noConfusion h
    · rw [hrs] at h
      exact Option.noConfusion h
  rcases x with _ | s2
  · rcases y with _ | fr
    · rw [hrs] at h
      exact Option.noConfusion h
    · rcases fr with fm | ⟨sd0, wd0⟩
      · rw [hrs] at h
        exact Option.noConfusion h
      · rw [hrs] at h
        exact Option.noConfusion h
  rcases y with _ | fr
  · rw [hrs] at h
    exact Option.noConfusion h
  rcases fr with fm | ⟨sd0, wd0⟩
  · rcases hss : c.stateStack with _ | ⟨t, _ | ⟨s, stk⟩⟩
    · rw [hrs, hss] at h
      exact Option.noConfusion h
    · rw [hrs, hss] at h
      exact Option.noConfusion h
    · rw [hrs, hss] at h
      rcases s2 with m2 | ⟨sd, wd⟩
      · exact ⟨_, _, _, _, _, rfl, (Option.some.inj h).symm⟩
      · exact ⟨_, _, _, _, _, rfl, (Option.some.inj h).symm⟩
  · rw [hrs] at h
    exact Option.noConfusion h

theorem stateChoiceMiddle_inv {second cont : MState} {c c' : Config}
    (h : stateChoiceMiddle second cont c = some c') :
    ∃ r rs, c.resultStack = some r :: rs ∧
      (c' = { position := c.position
              stateStack := c.stateStack.tail
              resultStack := some (r.addWork CHOICE_WORK) :: rs
              cache := c.cache } ∨
       c' = { position := c.position - r.distance
              stateStack := second :: cont :: c.stateStack.tail
              resultStack := none :: some r :: rs
              cache := c.cache }) := by
  unfold stateChoiceMiddle at h
  rcases hrs : c.resultStack with _ | ⟨x, rs⟩
  · rw [hrs] at h
    exact Option.noConfusion h
  rcases x with _ | r
  · rw [hrs] at h
    exact Option.noConfusion h
  simp only [hrs] at h
  refine ⟨r, rs, rfl, ?_⟩
  by_cases hm : r.isErrorFree = true
  · rw [if_pos hm] at h
    rcases hss : c.stateStack with _ | ⟨t, _ | ⟨s, stk⟩⟩
    · rw [hss] at h
      exact Option.noConfusion h
    · rw [hss] at h
      exact Option.noConfusion h
    · rw [hss] at h
      left
      exact (Option.some.inj h).symm
  · rw [if_neg hm] at h
    rcases hss : c.stateStack with _ | ⟨t, stk⟩
    · rw [hss] at h
      exact Option.noConfusion h
    · rw [hss] at h
      right
      exact (Option.some.inj h).symm

theorem stateChoiceEnd_inv {c c' : Config} (h : stateChoiceEnd c = some c') :
    ∃ a b rs p' rnew, c.resultStack = a :: b :: rs ∧
      c' = { position := p', stateStack := c.stateStack.tail,
             resultStack := some rnew :: rs, cache := c.cache } := by
  unfold stateChoiceEnd at h
  rcases hrs : c.resultStack with _ | ⟨x, xs⟩
  · rw [hrs] at h
    exact Option.noConfusion h
  rcases xs with _ | ⟨y, rs⟩
  · rcases x with _ | s2
    · rw [hrs] at h
      exact Option.noConfusion h
    · rw [hrs] at h
      exact Option.noConfusion h
  rcases x with _ | s2
  · rcases y with _ | fr
    · rw [hrs] at h
      exact Option.noConfusion h
    · rw [hrs] at h
      exact Option.noConfusion h
  rcases y with _ | fr
  · rw [hrs] at h
    exact Option.noConfusion h
  rcases hss : c.stateStack with _ | ⟨t, _ | ⟨s, stk⟩⟩
  · rw [hrs, hss] at h
    exact Option.noConfusion h
  · rw [hrs, hss] at h
    exact Option.noConfusion h
  simp only [hrs, hss] at h
  rcases fr with fm | ⟨fsd, fw⟩
  · rcases s2 with sm | ⟨ssd, sw⟩
    · simp only [] at h
      rcases hed : fm.errorDistance with _ | fd
      · rw [hed] at h
        exact Option.noConfusion h
      · simp only [hed] at h
        rcases hsed : sm.errorDistance with _ | sd
        · simp only [hsed] at h
          exact ⟨_, _, _, _, _, rfl, (Option.some.inj h).symm⟩
        · simp only [hsed] at h
          by_cases hgt : fd > sd
          · rw [if_pos (decide_eq_true hgt)] at h
            exact ⟨_, _, _, _, _, rfl, (Option.some.inj h).symm⟩
          · rw [if_neg (fun hd => hgt (of_decide_eq_true hd))] at h
            exact ⟨_, _, _, _, _, rfl, (Option.some.inj h).symm⟩
    · exact ⟨_, _, _, _, _, rfl, (Option.some.inj h).symm⟩
  · exact ⟨_, _, _, _, _, rfl, (Option.some.inj h).symm⟩

theorem stateNotAheadEnd_inv {c c' : Config}
    (h : stateNotAheadEnd c = some c') :
    ∃ x rs p' rnew, c.resultStack = x :: rs ∧
      c' = { position := p', stateStack := c.stateStack.tail,
             resultStack := some rnew :: rs, cache := c.cache } := by
  unfold stateNotAheadEnd at h
  rcases hrs : c.resultStack with _ | ⟨x, rs⟩
  · rw [hrs] at h
    exact Option.noConfusion h
  rcases x with _ | r
  · rw [hrs] at h
    exact Option.noConfusion h
  rcases hss : c.stateStack with _ | ⟨t, _ | ⟨s, stk⟩⟩
  · rw [hrs, hss] at h
    exact Option.noConfusion h
  · rw [hrs, hss] at h
    exact Option.noConfusion h
  · rw [hrs, hss] at h
    exact ⟨_, _, _, _, rfl, (Option.some.inj h).symm⟩

theorem stateErrorEnd_inv {expected : Nat} {c c' : Config}
    (h : stateErrorEnd expected c = some c') :
    ∃ x rs p' rnew, c.resultStack = x :: rs ∧
      c' = { position := p', stateStack := c.stateStack.tail,
             resultStack := some rnew :: rs, cache := c.cache } := by
  unfold stateErrorEnd at h
  rcases hrs : c.resultStack with _ | ⟨x, rs⟩
  · rw [hrs] at h
    exact Option.noConfusion h
  rcases x with _ | r
  · rw [hrs] at h
    exact Option.noConfusion h
  rcases hss : c.stateStack with _ | ⟨t, _ | ⟨s, stk⟩⟩
  · rw [hrs, hss] at h
    exact Option.noConfusion h
  · rw [hrs, hss] at h
    exact Option.noConfusion h
  · rw [hrs, hss] at h
    exact ⟨_, _, _, _, rfl, (Option.some.inj h).symm⟩

theorem stateLabelEnd_inv {labelId : Nat} {c c' : Config}
    (h : stateLabelEnd labelId c = some c') :
    ∃ x rs p' rnew, c.resultStack = x :: rs ∧
      c' = { position := p', stateStack := c.stateStack.tail,
             resultStack := some rnew :: rs, cache := c.cache } := by
  unfold stateLabelEnd at h
  rcases hrs : c.resultStack with _ | ⟨x, rs⟩
  · rw [hrs] at h
    exact Option.noConfusion h
  rcases x with _ | r
  · rw [hrs] at h
    exact Option.noConfusion h
  rcases hss : c.stateStack with _ | ⟨t, _ | ⟨s, stk⟩⟩
  · rw [hrs, hss] at h
    exact Option.noConfusion h
  · rw [hrs, hss] at h
    exact Option.noConfusion h
  · rw [hrs, hss] at h
    exact ⟨_, _, _, _, rfl, (Option.some.inj h).symm⟩

theorem stateCacheStart_inv {slot : Nat} {target cont : MState}
    {c c' : Config} (h : stateCacheStart slot target cont c = some c') :
    (∃ x rs p' rnew, c.resultStack = x :: rs ∧
        c' = { position := p', stateStack := c.stateStack.tail,
               resultStack := some rnew :: rs, cache := c.cache }) ∨
      c' = { c with stateStack := target :: cont :: c.stateStack.tail } := by
  unfold stateCacheStart at h
  rcases hcg : cacheGet c.cache slot c.position with _ | r
  · rw [hcg] at h
    right
    rcases hss : c.stateStack with _ | ⟨t, stk⟩
    · rw [hss] at h
      exact Option.noConfusion h
    · rw [hss] at h
      exact (Option.some.inj h).symm
  · rw [hcg] at h
    left
    rcases hss : c.stateStack with _ | ⟨t, _ | ⟨s, stk⟩⟩
    · rw [hss] at h
      exact Option.noConfusion h
    · rw [hss] at h
      exact Option.noConfusion h
    rcases hrs : c.resultStack with _ | ⟨x, rs⟩
    · rw [hss, hrs] at h
      exact Option.noConfusion h
    · rw [hss, hrs] at h
      exact ⟨_, _, _, _, rfl, (Option.some.inj h).symm⟩

theorem stateCacheEnd_inv {slot : Nat} {c c' : Config}
    (h : stateCacheEnd slot c = some c') :
    ∃ x rs p' rnew cache', c.resultStack = x :: rs ∧
      c' = { position := p', stateStack := c.stateStack.tail,
             resultStack := some rnew :: rs, cache := cache' } := by
  unfold stateCacheEnd at h
  rcases hrs : c.resultStack with _ | ⟨x, rs⟩
  · rw [hrs] at h
    exact Option.noConfusion h
  rcases x with _ | r
  · rw [hrs] at h
    exact Option.noConfusion h
  rcases hss : c.stateStack with _ | ⟨t, _ | ⟨s, stk⟩⟩
  · rw [hrs, hss] at h
    exact Option.noConfusion h
  · rw [hrs, hss] at h
    exact Option.noConfusion h
  simp only [hrs, hss] at h
  by_cases hw : r.work > MAX_UNCACHED_WORK
  · rw [if_pos hw] at h
    rcases r with m | ⟨sd, wd⟩
    · exact ⟨_, _, _, _, _, rfl, (Option.some.inj h).symm⟩
    · exact ⟨_, _, _, _, _, rfl, (Option.some.inj h).symm⟩
  · rw [if_neg hw] at h
    exact ⟨some r, rs, c.position, r, c.cache, rfl, (Option.some.inj h).symm⟩

theorem stateSeries_inv {sv : Series} {input : List Nat} {c c' : Config}
    (h : stateSeries sv input c = some c') :
    ∃ x rs p' rnew, c.resultStack = x :: rs ∧
      c' = { position := p', stateStack := c.stateStack.tail,
             resultStack := some rnew :: rs, cache := c.cache } := by
  unfold stateSeries at h
  rcases hsm : seriesMatch sv input c.position with ⟨mat, len⟩
  rw [hsm] at h
  rcases hss : c.stateStack with _ | ⟨t, _ | ⟨s, stk⟩⟩
  · rw [hss] at h
    exact Option.noConfusion h
  · rw [hss] at h
    exact Option.noConfusion h
  rcases hrs : c.resultStack with _ | ⟨x, rs⟩
  · rw [hss, hrs] at h
    exact Option.noConfusion h
  simp only [hss, hrs] at h
  rcases mat with _ | _
  · rw [if_neg Bool.false_ne_true] at h
    exact ⟨_, _, _, _, rfl, (Option.some.inj h).symm⟩
  · rw [if_pos rfl] at h
    exact ⟨_, _, _, _, rfl, (Option.some.inj h).symm⟩

/-! ### Preservation of the invariant -/

theorem stageCount_pos (instr : Instruction) : 1 ≤ stageCount instr := by
  cases instr <;> simp [stageCount]

theorem stateOk_target (g : Parser) {t : Nat}
    (h : (g.instructions.lookup t).isSome = true) :
    stateOkB g (.st t 0) = true := by
  show (match g.instructions.lookup t with
    | none => false
    | some instr => decide (0 < stageCount instr)) = true
  cases hlk : g.instructions.lookup t with
  | none => rw [hlk] at h; exact Bool.noConfusion h
  | some instr =>
    exact decide_eq_true (stageCount_pos instr)

theorem stateOk_cont (g : Parser) {id : Nat} {instr : Instruction} (k : Nat)
    (hlk : g.instructions.lookup id = some instr)
    (hk : k < stageCount instr) : stateOkB g (.st id k) = true := by
  show (match g.instructions.lookup id with
    | none => false
    | some instr => decide (k < stageCount instr)) = true
  rw [hlk]
  exact decide_eq_true hk

theorem closed_succ (g : Parser) (hcl : g.ClosedB = true) {id t : Nat}
    {instr : Instruction} (hlk : g.instructions.lookup id = some instr)
    (ht : t ∈ instr.successors) :
    (g.instructions.lookup t).isSome = true := by
  simp only [Parser.ClosedB, Bool.and_eq_true, List.all_eq_true] at hcl
  obtain ⟨-, hall⟩ := hcl
  unfold Store.lookup at hlk
  cases hfind : g.instructions.entries.find? (fun e => e.1 = id) with
  | none => rw [hfind] at hlk; exact Option.noConfusion hlk
  | some e =>
    rw [hfind] at hlk
    have hmem := List.mem_of_find?_eq_some hfind
    have h2 : e.2 = instr := Option.some.inj hlk
    have hsucc := hall e hmem
    rw [h2] at hsucc
    exact hsucc t ht

theorem step_head {g : Parser} {input : List Nat} {c : Config}
    {id stage : Nat}
    (hhead : c.stateStack.head? = some (MState.st id stage)) :
    step g input c =
      match g.instructions.lookup id with
      | none => none
      | some instr => stepAt g input id instr stage c := by
  simp only [step, hhead]

/-- A successful dispatch preserves the stack-discipline invariant. -/
theorem inv_step (g : Parser) (input : List Nat) {c c' : Config}
    (hcl : g.ClosedB = true) (hinv : Inv g c)
    (hstep : step g input c = some c') : Inv g c' := by
  obtain ⟨rest, hss0, hparts⟩ := hinv
  cases rest with
  | nil =>
    have hhead : c.stateStack.head? = some MState.finish := by
      rw [hss0]; rfl
    unfold step at hstep
    rw [hhead] at hstep
    exact Option.noConfusion hstep
  | cons top rest0 =>
    cases top with
    | finish =>
      have hbad := hparts.1 MState.finish (List.mem_cons_self _ _)
      simp [stateOkB] at hbad
    | st id stage =>
      have hss : c.stateStack =
          MState.st id stage :: (rest0 ++ [MState.finish]) := by
        rw [hss0]; rfl
      have hhead : c.stateStack.head? = some (MState.st id stage) := by
        rw [hss]; rfl
      rw [step_head hhead] at hstep
      cases hlk : g.instructions.lookup id with
      | none => rw [hlk] at hstep; exact Option.noConfusion hstep
      | some instr =>
        rw [hlk] at hstep
        replace hstep : stepAt g input id instr stage c = some c' := hstep
        have hstage : stage < stageCount instr := by
          have hok := hparts.1 _ (List.mem_cons_self _ _)
          replace hok : (match g.instructions.lookup id with
            | none => false
            | some instr => decide (stage < stageCount instr)) = true := hok
          rw [hlk] at hok
          exact of_decide_eq_true hok
        cases instr with
        | seq first second =>
          have hokf : stateOkB g (.st first 0) = true :=
            stateOk_target g (closed_succ g hcl hlk
              (by simp [Instruction.successors]))
          have hoks : stateOkB g (.st second 0) = true :=
            stateOk_target g (closed_succ g hcl hlk
              (by simp [Instruction.successors]))
          rcases stage with _ | _ | _ | n
          · replace hstep :
                stateSeqStart (.st first 0) (.st id 1) c = some c' := hstep
            exact inv_glue_push g hss hparts hokf
              (stateOk_cont g 1 hlk (by norm_num [stageCount])) rfl
              (by norm_num [stageOf]) rfl rfl (stateSeqStart_inv hstep)
          · replace hstep :
                stateSeqMiddle (.st second 0) (.st id 2) c = some c' := hstep
            obtain ⟨r, rs, hrs, hdisj⟩ := stateSeqMiddle_inv hstep
            rcases hdisj with hc' | hc'
            · exact inv_glue_stashPush g hss hparts hrs hoks
                (stateOk_cont g 2 hlk (by norm_num [stageCount])) rfl rfl
                (by norm_num [stageOf]) rfl rfl hc'
            · exact inv_glue_setPop g hss hparts rfl hrs hc'
          · replace hstep : stateSeqEnd c = some c' := hstep
            obtain ⟨a, b, rs, p', rnew, hrs, hc'⟩ := stateSeqEnd_inv hstep
            exact inv_glue_popSetPop g hss hparts hrs hc'
          · simp only [stageCount] at hstage
            omega
        | choice first second =>
          have hokf : stateOkB g (.st first 0) = true :=
            stateOk_target g (closed_succ g hcl hlk
              (by simp [Instruction.successors]))
          have hoks : stateOkB g (.st second 0) = true :=
            stateOk_target g (closed_succ g hcl hlk
              (by simp [Instruction.successors]))
          rcases stage with _ | _ | _ | n
          · replace hstep :
                stateSeqStart (.st first 0) (.st id 1) c = some c' := hstep
            exact inv_glue_push g hss hparts hokf
              (stateOk_cont g 1 hlk (by norm_num [stageCount])) rfl
              (by norm_num [stageOf]) rfl rfl (stateSeqStart_inv hstep)
          · replace hstep :
                stateChoiceMiddle (.st second 0) (.st id 2) c = some c' :=
              hstep
            obtain ⟨r, rs, hrs, hdisj⟩ := stateChoiceMiddle_inv hstep
            rcases hdisj with hc' | hc'
            · exact inv_glue_setPop g hss hparts rfl hrs hc'
            · exact inv_glue_stashPush g hss hparts hrs hoks
                (stateOk_cont g 2 hlk (by norm_num [stageCount])) rfl rfl
                (by norm_num [stageOf]) rfl rfl hc'
          · replace hstep : stateChoiceEnd c = some c' := hstep
            obtain ⟨a, b, rs, p', rnew, hrs, hc'⟩ := stateChoiceEnd_inv hstep
            exact inv_glue_popSetPop g hss hparts hrs hc'
          · simp only [stageCount] at hstage
            omega
        | notAhead target =>
          have hokt : stateOkB g (.st target 0) = true :=
            stateOk_target g (closed_succ g hcl hlk
              (by simp [Instruction.successors]))
          rcases stage with _ | _ | n
          · replace hstep :
                stateSeqStart (.st target 0) (.st id 1) c = some c' := hstep
            exact inv_glue_push g hss hparts hokt
              (stateOk_cont g 1 hlk (by norm_num [stageCount])) rfl
              (by norm_num [stageOf]) rfl rfl (stateSeqStart_inv hstep)
          · replace hstep : stateNotAheadEnd c = some c' := hstep
            obtain ⟨x, rs, p', rnew, hrs, hc'⟩ := stateNotAheadEnd_inv hstep
            exact inv_glue_setPop g hss hparts rfl hrs hc'
          · simp only [stageCount] at hstage
            omega
        | error target expected =>
          have hokt : stateOkB g (.st target 0) = true :=
            stateOk_target g (closed_succ g hcl hlk
              (by simp [Instruction.successors]))
          rcases stage with _ | _ | n
          · replace hstep :
                stateSeqStart (.st target 0) (.st id 1) c = some c' := hstep
            exact inv_glue_push g hss hparts hokt
              (stateOk_cont g 1 hlk (by norm_num [stageCount])) rfl
              (by norm_num [stageOf]) rfl rfl (stateSeqStart_inv hstep)
          · replace hstep : stateErrorEnd expected c = some c' := hstep
            obtain ⟨x, rs, p', rnew, hrs, hc'⟩ := stateErrorEnd_inv hstep
            exact inv_glue_setPop g hss hparts rfl hrs hc'
          · simp only [stageCount] at hstage
            omega
        | label target labelId =>
          have hokt : stateOkB g (.st target 0) = true :=
            stateOk_target g (closed_succ g hcl hlk
              (by simp [Instruction.successors]))
          rcases stage with _ | _ | n
          · replace hstep :
                stateSeqStart (.st target 0) (.st id 1) c = some c' := hstep
            exact inv_glue_push g hss hparts hokt
              (stateOk_cont g 1 hlk (by norm_num [stageCount])) rfl
              (by norm_num [stageOf]) rfl rfl (stateSeqStart_inv hstep)
          · replace hstep : stateLabelEnd labelId c = some c' := hstep
            obtain ⟨x, rs, p', rnew, hrs, hc'⟩ := stateLabelEnd_inv hstep
            exact inv_glue_setPop g hss hparts rfl hrs hc'
          · simp only [stageCount] at hstage
            omega
        | cache target slotOpt =>
          have hokt : stateOkB g (.st target 0) = true :=
            stateOk_target g (closed_succ g hcl hlk
              (by simp [Instruction.successors]))
          rcases slotOpt with _ | slot
          · rcases stage with _ | _ | n
            · exact Option.noConfusion hstep
            · exact Option.noConfusion hstep
            · simp only [stageCount] at hstage
              omega
          · rcases stage with _ | _ | n
            · replace hstep :
                  stateCacheStart slot (.st target 0) (.st id 1) c =
                    some c' := hstep
              rcases stateCacheStart_inv hstep with
                ⟨x, rs, p', rnew, hrs, hc'⟩ | hc'
              · exact inv_glue_setPop g hss hparts rfl hrs hc'
              · exact inv_glue_push g hss hparts hokt
                  (stateOk_cont g 1 hlk (by norm_num [stageCount])) rfl
                  (by norm_num [stageOf]) rfl rfl hc'
            · replace hstep : stateCacheEnd slot c = some c' := hstep
              obtain ⟨x, rs, p', rnew, cache', hrs, hc'⟩ :=
                stateCacheEnd_inv hstep
              exact inv_glue_setPop g hss hparts rfl hrs hc'
            · simp only [stageCount] at hstage
              omega
        | delegate target =>
          have hokt : stateOkB g (.st target 0) = true :=
            stateOk_target g (closed_succ g hcl hlk
              (by simp [Instruction.successors]))
          rcases stage with _ | n
          · replace hstep : stateDelegate (.st target 0) c = some c' := hstep
            exact inv_glue_replaceTop g hss hparts hokt rfl rfl
              (stateDelegate_inv hstep)
          · simp only [stageCount] at hstage
            omega
        | series sid =>
          rcases stage with _ | n
          · replace hstep : (match g.seriesStore.lookup sid with
                | some sv => stateSeries sv input c
                | none => none) = some c' := hstep
            cases hsv : g.seriesStore.lookup sid with
            | none => rw [hsv] at hstep; exact Option.noConfusion hstep
            | some sv =>
              rw [hsv] at hstep
              replace hstep : stateSeries sv input c = some c' := hstep
              obtain ⟨x, rs, p', rnew, hrs, hc'⟩ := stateSeries_inv hstep
              exact inv_glue_setPop g hss hparts rfl hrs hc'
          · simp only [stageCount] at hstage
            omega

theorem inv_stepN (g : Parser) (input : List Nat) (hcl : g.ClosedB = true) :
    ∀ n, ∀ {c c' : Config}, Inv g c → stepN g input n c = some c' →
      Inv g c' := by
  intro n
  induction n with
  | zero =>
    intro c c' hinv hstep
    have heq := Option.some.inj hstep
    rw [← heq]
    exact hinv
  | succ k ih =>
    intro c c' hinv hstep
    unfold stepN at hstep
    cases hone : step g input c with
    | none => rw [hone] at hstep; exact Option.noConfusion hstep
    | some c1 =>
      rw [hone] at hstep
      exact ih (inv_step g input hcl hinv hone) hstep

/-- From the invariant, a successful `Context::finish` run exits with only
the sentinel on the state stack and the returned result as the lone
populated slot. -/
theorem runFuel_exit (g : Parser) (input : List Nat)
    (hcl : g.ClosedB = true) :
    ∀ fuel, ∀ {c : Config} {r : PResult} {cexit : Config}, Inv g c →
      runFuel g input fuel c = some (r, cexit) →
      cexit.stateStack = [MState.finish] ∧
        cexit.resultStack = [some r] := by
  intro fuel
  induction fuel with
  | zero =>
    intro c r cexit hinv hrun
    exact Option.noConfusion hrun
  | succ k ih =>
    intro c r cexit hinv hrun
    obtain ⟨rest, hss0, hparts⟩ := hinv
    unfold runFuel at hrun
    cases rest with
    | nil =>
      have hss : c.stateStack = [MState.finish] := by rw [hss0]; rfl
      obtain ⟨r0, hrs⟩ := hparts.2.2.2
      rw [hss, hrs] at hrun
      have hpair : (r0, c) = (r, cexit) := Option.some.inj hrun
      have hr : r0 = r := congrArg Prod.fst hpair
      have hc : c = cexit := congrArg Prod.snd hpair
      constructor
      · rw [← hc]
        exact hss
      · rw [← hc, hrs, hr]
    | cons top rest0 =>
      cases top with
      | finish =>
        have hbad := hparts.1 MState.finish (List.mem_cons_self _ _)
        simp [stateOkB] at hbad
      | st id stage =>
        have hhead : c.stateStack.head? = some (MState.st id stage) := by
          rw [hss0]; rfl
        rw [hhead] at hrun
        replace hrun :
            (step g input c).bind (runFuel g input k) = some (r, cexit) :=
          hrun
        cases hone : step g input c with
        | none => rw [hone] at hrun; exact Option.noConfusion hrun
        | some c1 =>
          rw [hone] at hrun
          exact ih (inv_step g input hcl ⟨_, hss0, hparts⟩ hone) hrun

/-- `Context::new` establishes the invariant. -/
theorem inv_init (g : Parser) (hok : stateOkB g (.st g.start 0) = true) :
    Inv g (initConfig g) := by
  refine ⟨[.st g.start 0], rfl, ?_, ?_, ?_, ?_⟩
  · intro s hs
    have heq := List.mem_singleton.mp hs
    rw [heq]
    exact hok
  · rfl
  · intro s hs
    simp at hs
  · intro hcontra
    simp [stageOf] at hcontra

/-- C3: every configuration reachable by the interpreter's step relation
from `Context::new` keeps the state stack and the result stack
depth-synchronised (the decidable invariant `InvB`: the sentinel sits at
the bottom, the result stack holds one working slot plus one stash per
stage-2 continuation, and resumed continuations find a populated top
slot); and when `Context::finish` exits, the state stack holds only the
sentinel and the result stack exactly the one populated result that
`Context::run` returns. -/
theorem machine_stack_discipline (g : Parser) (input : List Nat)
    (hcl : g.ClosedB = true) :
    (∀ n c, stepN g input n (initConfig g) = some c →
      InvB g c = true) ∧
    (∀ fuel r cexit, runMachine g input fuel = some (r, cexit) →
      cexit.stateStack = [MState.finish] ∧
        cexit.resultStack = [some r]) := by
  have hstart : stateOkB g (.st g.start 0) = true := by
    have h1 : (g.instructions.lookup g.start).isSome = true := by
      have h := hcl
      simp only [Parser.ClosedB, Bool.and_eq_true] at h
      exact h.1.1
    exact stateOk_target g h1
  constructor
  · intro n c hstep
    exact (invB_iff_inv g c).mpr
      (inv_stepN g input hcl n (inv_init g hstart) hstep)
  · intro fuel r cexit hrun
    exact runFuel_exit g input hcl fuel (inv_init g hstart) hrun

/-- A two-byte sequence grammar (`ab`) used to instantiate the stack
discipline at a concrete, fully evaluable parser. -/
def w3Parser : Parser :=
  { start := 0
    instructions := ⟨3, [(0, .seq 1 2), (1, .series 0), (2, .series 1)]⟩
    seriesStore := ⟨2, [(0, ⟨[⟨false, [(97, 97)]⟩]⟩),
                        (1, ⟨[⟨false, [(98, 98)]⟩]⟩)]⟩
    labelsStore := Store.newStore
    expectedsStore := Store.newStore
    debugSymbols := [] }

theorem machine_stack_discipline_witness :
    (∀ n c, stepN w3Parser [97, 98] n (initConfig w3Parser) = some c →
      InvB w3Parser c = true) ∧
    (∀ fuel r cexit, runMachine w3Parser [97, 98] fuel = some (r, cexit) →
      cexit.stateStack = [MState.finish] ∧
        cexit.resultStack = [some r]) :=
  machine_stack_discipline w3Parser [97, 98] (by decide)

/-- The stashed first-branch match of the C1 run: it matched 6 bytes with
an error at offset 5 (the farther error). -/
def c1Fm : PMatch := .mk 6 2 6 (some 5) .noGroup []

/-- The second-branch match of the C1 run: 4 bytes with an error at
offset 3 (the nearer error). -/
def c1Sm : PMatch := .mk 4 3 4 (some 3) .noGroup []

/-- A configuration at a `choice_end` state with both branches matched. -/
def c1Config : Config :=
  { position := 10
    stateStack := [.st 0 2, .finish]
    resultStack := [some (.matched c1Sm), some (.matched c1Fm)]
    cache := [] }

/-- C1: refuted on the both-matched case. The spec says the branch whose
`error_distance` is farther is kept, but `state_choice_end` computes
`use_second = first_dist > second_dist` and so keeps the branch whose
error is nearer: with the stashed first branch erroring at offset 5 and
the second at offset 3, the code keeps the second branch (the kept
result's error distance is 3, not 5). The code also contradicts its own
`None` case, where an error-free (infinitely far) second branch wins. -/
theorem choice_end_keeps_nearer_error :
    c1Fm.errorDistance = some 5 ∧ c1Sm.errorDistance = some 3 ∧
    stateChoiceEnd c1Config =
      some { position := 10
             stateStack := [MState.finish]
             resultStack :=
               [some (.matched ((c1Sm.extendScanDistance
                 c1Fm.scanDistance).withWork (2 + 3 + CHOICE_WORK)))]
             cache := [] } ∧
    ((c1Sm.extendScanDistance c1Fm.scanDistance).withWork
        (2 + 3 + CHOICE_WORK)).errorDistance = some 3 :=
  ⟨rfl, rfl, rfl, rfl⟩

/-- C10: with both branches matched and equal error distances,
`use_second` is false and `state_choice_end` keeps the first branch's
match, sets the position to the choice's start (the current position
minus the second branch's distance) plus the first branch's distance,
and takes from the second branch only its scan distance and its work. -/
theorem choice_end_equal_error_keeps_first (c : Config) (fm sm : PMatch)
    (rs : List (Option PResult)) (t s : MState) (stk : List MState)
    (d : Nat)
    (hrs : c.resultStack = some (.matched sm) :: some (.matched fm) :: rs)
    (hss : c.stateStack = t :: s :: stk)
    (hfd : fm.errorDistance = some d) (hsd : sm.errorDistance = some d) :
    stateChoiceEnd c =
      some { position := c.position - sm.distance + fm.distance
             stateStack := s :: stk
             resultStack :=
               some (.matched ((fm.extendScanDistance
                 sm.scanDistance).withWork
                   (fm.work + sm.work + CHOICE_WORK))) :: rs
             cache := c.cache } := by
  unfold stateChoiceEnd
  simp only [hrs, hss, hfd, hsd]
  rw [if_neg (fun hd => Nat.lt_irrefl d (of_decide_eq_true hd))]
  rfl

/-- The C10 instantiation: both branches error at offset 1. -/
def c10Fm : PMatch := .mk 3 2 3 (some 1) .noGroup []

def c10Sm : PMatch := .mk 5 4 2 (some 1) .noGroup []

def c10Config : Config :=
  { position := 9
    stateStack := [.st 0 2, .finish]
    resultStack := [some (.matched c10Sm), some (.matched c10Fm)]
    cache := [] }

theorem choice_end_equal_error_keeps_first_witness :
    stateChoiceEnd c10Config =
      some { position := c10Config.position - c10Sm.distance +
               c10Fm.distance
             stateStack := [MState.finish]
             resultStack :=
               [some (.matched ((c10Fm.extendScanDistance
                 c10Sm.scanDistance).withWork
                   (c10Fm.work + c10Sm.work + CHOICE_WORK)))]
             cache := [] } :=
  choice_end_equal_error_keeps_first c10Config c10Fm c10Sm []
    (MState.st 0 2) MState.finish [] 1 rfl rfl rfl rfl

end PegPack
